import Mathlib

/-!
A shallow embedding of the go-ebnf combinator matching engine: the
position-tracking rune reader with its savepoint stack (reader part of the
repository, the iteration with line tracking and the error stack) and the
seven pattern variants of `ebnf.go` (TerminalString, CharacterGroup,
Alternation, Concatenation, Repetition, Exception, EOF), together with
theorems about backtracking, savepoint balance, ordered choice, slice
correctness, line tracking, transform dispatch and deepest-error selection.

Modelling conventions:
* Go runes are `Char`, strings are `List Char`.
* Go `int` indices are `Nat` (all reachable values are non-negative); the
  one subtraction that Go performs on possibly untracked values,
  `relativePosition`, is computed in `Int`.
* Go slices used as stacks (`bufPosStack`, `linePosStack`) keep their top at
  the head of a Lean list; `errorStack`, whose insertion order matters for
  `DeepestError`, appends at the tail exactly like the Go slice.
* A Go function returning `(*MatchResult, error)` while mutating the reader
  becomes a function returning an `Outcome` paired with the final reader;
  `Outcome.fatal` is the `return nil, err` path, `Outcome.panicked` marks a
  run that dereferences a nil pointer (a Go runtime panic).
* The unbounded `for` loop of `Repetition.Match` can diverge in Go (a child
  that succeeds without consuming); `matchF` therefore takes fuel and returns
  `none` when the fuel runs out.
-/

/-- ReaderPos holds character and line positions (reader source). -/
@[ext] structure ReaderPos where
  absoluteCharPos : Nat
  relativeCharPos : Int
  linePos : Nat
deriving DecidableEq, Repr

mutual
/-- The payload of `MatchResult.Result` (`interface{}` in Go): nothing, the
matched text (TerminalString, CharacterGroup) or a list of child results
(Concatenation, Repetition). -/
inductive ResultValue : Type where
  | vnone : ResultValue
  | vstr : List Char → ResultValue
  | vlist : List MatchResult → ResultValue

/-- MatchResult contains the result of a match (`ebnf.go`).  Fields, in
order: `Match`, `PartialMatch`, `BeginPos`, `EndPos`, `Result`, `Error`,
`Failed`.  The two position fields and `Failed` are Go pointers, hence
`Option`. -/
inductive MatchResult : Type where
  | mk : Bool → Bool → Option ReaderPos → Option ReaderPos →
      ResultValue → Option String → Option MatchResult → MatchResult
end

def MatchResult.Match : MatchResult → Bool
  | .mk m _ _ _ _ _ _ => m

def MatchResult.PartialMatch : MatchResult → Bool
  | .mk _ p _ _ _ _ _ => p

def MatchResult.BeginPos : MatchResult → Option ReaderPos
  | .mk _ _ b _ _ _ _ => b

def MatchResult.EndPos : MatchResult → Option ReaderPos
  | .mk _ _ _ e _ _ _ => e

def MatchResult.Result : MatchResult → ResultValue
  | .mk _ _ _ _ v _ _ => v

def MatchResult.Error : MatchResult → Option String
  | .mk _ _ _ _ _ e _ => e

def MatchResult.Failed : MatchResult → Option MatchResult
  | .mk _ _ _ _ _ _ f => f

/-- Go field assignment `result.Match = b`. -/
def MatchResult.setMatch : MatchResult → Bool → MatchResult
  | .mk _ p b e v er f, m => .mk m p b e v er f

/-- Go field assignment `result.Failed = f`. -/
def MatchResult.setFailed : MatchResult → Option MatchResult → MatchResult
  | .mk m p b e v er _, f => .mk m p b e v er f

/-- Reader buffers runes to allow backtracking (reader source: `buf`,
`bufPos`, `bufPosEnd`, `bufPosStack`, `lines`, `linePos`, `linePosEnd`,
`linePosStack`, `errorStack`). -/
@[ext] structure Reader where
  buf : List Char
  bufPos : Nat
  bufPosEnd : Nat
  bufPosStack : List Nat
  lines : List Nat
  linePos : Nat
  linePosEnd : Nat
  linePosStack : List Nat
  errorStack : List MatchResult

/-- The line scan of `NewReader`: collect the index one past every line
terminator, normalizing CRLF to a single break.  `idx` is the index of the
head of the remaining list in the whole buffer. -/
def scanLines : List Char → Nat → List Nat
  | [], _ => []
  | '\r' :: '\n' :: rest2, idx => (idx + 2) :: scanLines rest2 (idx + 2)
  | '\r' :: rest, idx => (idx + 1) :: scanLines rest (idx + 1)
  | '\n' :: rest, idx => (idx + 1) :: scanLines rest (idx + 1)
  | _ :: rest, idx => scanLines rest (idx + 1)

/-- NewReader: buffer the whole input, prefetch the line starts, seed the
savepoint stacks with the sentinel 0 entries. -/
def NewReader (input : List Char) : Reader :=
  { buf := input
    bufPos := 0
    bufPosEnd := input.length
    bufPosStack := [0]
    lines := scanLines input 0
    linePos := 0
    linePosEnd := (scanLines input 0).length
    linePosStack := [0]
    errorStack := [] }

/-- Relative position of the cursor with regard to the current line start
(Go computes `bufPos - lines[linePos-1]` on `int`s; the index is in range in
every reachable state). -/
def Reader.relativePosition (r : Reader) : Int :=
  if r.linePos = 0 then (r.bufPos : Int)
  else (r.bufPos : Int) - (r.lines.getD (r.linePos - 1) 0 : Int)

/-- CurrentPosition returns the current reader position. -/
def Reader.currentPosition (r : Reader) : ReaderPos :=
  { absoluteCharPos := r.bufPos
    relativeCharPos := r.relativePosition
    linePos := r.linePos }

/-- PushState pushes the current buffer state on the stack. -/
def Reader.pushState (r : Reader) : Reader :=
  { r with bufPosStack := r.bufPos :: r.bufPosStack
           linePosStack := r.linePos :: r.linePosStack }

/-- RestoreState pops and restores the last pushed buffer position.  Go
panics on an empty stack; the sentinel entry is never popped, so that case
is unreachable and we return the reader unchanged there. -/
def Reader.restoreState (r : Reader) : Reader :=
  match r.bufPosStack, r.linePosStack with
  | b :: bs, l :: ls =>
      { r with bufPos := b, bufPosStack := bs, linePos := l, linePosStack := ls }
  | _, _ => r

/-- PopState pops the last pushed buffer state without restoring (same
unreachable empty-stack convention as `restoreState`). -/
def Reader.popState (r : Reader) : Reader :=
  match r.bufPosStack, r.linePosStack with
  | _ :: bs, _ :: ls => { r with bufPosStack := bs, linePosStack := ls }
  | _, _ => r

/-- The Go slice expression `buf[b:e]`.  Taking `drop`/`take` agrees with Go
wherever Go does not panic (`b ≤ e ≤ len buf`). -/
def goSlice (buf : List Char) (b e : Nat) : List Char :=
  (buf.drop b).take (e - b)

/-- String: the buffer content between the top savepoint and the cursor. -/
def Reader.string (r : Reader) : List Char :=
  goSlice r.buf (r.bufPosStack.headD 0) r.bufPos

/-- Finished: true when the end of the buffer is reached. -/
def Reader.finished (r : Reader) : Bool :=
  r.bufPosEnd ≤ r.bufPos

/-- Read returns the next rune and advances the read position; past the end
it reports end of input (`io.EOF`) and leaves the reader unchanged.  The
line counter advances only while the new position is still strictly inside
the buffer. -/
def Reader.read (r : Reader) : Option Char × Reader :=
  if r.bufPos < r.bufPosEnd then
    (some (r.buf.getD r.bufPos default),
      { r with
          bufPos := r.bufPos + 1,
          linePos :=
            if r.bufPos + 1 < r.bufPosEnd ∧ r.linePos < r.linePosEnd ∧
                r.lines.getD r.linePos 0 ≤ r.bufPos + 1
            then r.linePos + 1 else r.linePos })
  else (none, r)

/-- The `EndPos.absoluteCharPos` dereference of `DeepestError`.  Go panics
when `EndPos` is nil; the theorems only consider stacks whose entries carry
positions, where the default is never used. -/
def endAbs (m : MatchResult) : Nat :=
  match m.EndPos with
  | some p => p.absoluteCharPos
  | none => 0

/-- StringFromResult: `buf[m.BeginPos.abs : m.EndPos.abs]` as an `Option`;
`none` models the Go panics (nil position pointer, slice bounds out of
range). -/
def Reader.stringFromResult (r : Reader) (m : MatchResult) : Option (List Char) :=
  match m.BeginPos, m.EndPos with
  | some b, some e =>
      if b.absoluteCharPos ≤ e.absoluteCharPos ∧ e.absoluteCharPos ≤ r.buf.length
      then some (goSlice r.buf b.absoluteCharPos e.absoluteCharPos)
      else none
  | _, _ => none

/-- PushError appends a failed match result to the error stack. -/
def Reader.pushError (r : Reader) (failed : MatchResult) : Reader :=
  { r with errorStack := r.errorStack ++ [failed] }

/-- The loop body of `DeepestError`: keep the current candidate unless the
next entry is strictly deeper. -/
def deepestStep (acc : Option MatchResult) (result : MatchResult) : Option MatchResult :=
  match acc with
  | none => some result
  | some d => if endAbs d < endAbs result then some result else some d

/-- DeepestError returns the error stack entry that is most advanced in
character position (first pushed wins ties); `none` on an empty stack. -/
def Reader.deepestError (r : Reader) : Option MatchResult :=
  r.errorStack.foldl deepestStep none

/-- TransformFunction: `func(m *MatchResult, r *Reader) error`.  The Go
callback mutates the result and the reader in place and returns an optional
error, so here it returns all three. -/
def TransformFn : Type :=
  MatchResult → Reader → Option String × MatchResult × Reader

/-- BaseTransformer.Transform: run the callback when present (`b.T != nil`),
otherwise report no error and leave everything unchanged. -/
def runT (t : Option TransformFn) (m : MatchResult) (r : Reader) :
    Option String × MatchResult × Reader :=
  match t with
  | none => (none, m, r)
  | some f => f m r

/-- The seven pattern variants of `ebnf.go`.  Each carries the optional
transform of its embedded `BaseTransformer`. -/
inductive Pattern : Type where
  | terminal : List Char → Option TransformFn → Pattern
  | charGroup : (Char → Bool) → Bool → Option TransformFn → Pattern
  | alternation : List Pattern → Option TransformFn → Pattern
  | concatenation : List Pattern → Option TransformFn → Pattern
  | repetition : Pattern → Nat → Nat → Option TransformFn → Pattern
  | exception : Pattern → Pattern → Option TransformFn → Pattern
  | eofP : Option TransformFn → Pattern

/-- How a `Match` call in Go can end: return a result, return `nil, err`
(a transform reported a fatal error), or panic at a nil dereference. -/
inductive Outcome : Type where
  | ok : MatchResult → Outcome
  | fatal : String → Outcome
  | panicked : Outcome

/-- The engine's return type: `none` when the fuel ran out, otherwise the
outcome together with the reader as the call left it. -/
abbrev MRes : Type := Option (Outcome × Reader)

/-- The loop of `TerminalString.Match`: read one rune per code point of the
configured string; a mismatch or end of input finalizes a failed result,
runs the transform and restores; exhausting the string finalizes a
successful result with `Result = reader.String()`, runs the transform and
pops. -/
def termLoop (t : Option TransformFn) (beginPos : ReaderPos) :
    List Char → Reader → MRes
  | [], r =>
      let res := MatchResult.mk true false (some beginPos)
        (some r.currentPosition) (.vstr r.string) none none
      match runT t res r with
      | (some e, _, r1) => some (.fatal e, r1)
      | (none, m, r1) => some (.ok m, r1.popState)
  | c :: cs, r =>
      match r.read with
      | (none, r1) =>
          let res := MatchResult.mk false false (some beginPos)
            (some r1.currentPosition) .vnone none none
          match runT t res r1 with
          | (some e, _, r2) => some (.fatal e, r2)
          | (none, m, r2) => some (.ok m, r2.restoreState)
      | (some c2, r1) =>
          if c ≠ c2 then
            let res := MatchResult.mk false false (some beginPos)
              (some r1.currentPosition) .vnone none none
            match runT t res r1 with
            | (some e, _, r2) => some (.fatal e, r2)
            | (none, m, r2) => some (.ok m, r2.restoreState)
          else termLoop t beginPos cs r1

/-- The failure exit of `Alternation.Match`: the loop is over, build the
failed result carrying the remembered partial child, run the transform. -/
def altFinal (t : Option TransformFn) (beginPos : ReaderPos)
    (pRes : Option MatchResult) (r : Reader) : MRes :=
  let res := MatchResult.mk false false (some beginPos) (some beginPos)
    .vnone none pRes
  match runT t res r with
  | (some e, _, r1) => some (.fatal e, r1)
  | (none, m, r1) => some (.ok m, r1)

/-- The loop of `Alternation.Match` over the children: stop as soon as the
reader is finished; return the first matching child's result (with the
alternation's transform applied); remember the most recent partial child. -/
def altLoop (child : Pattern → Reader → MRes) (t : Option TransformFn)
    (beginPos : ReaderPos) :
    List Pattern → Option MatchResult → Reader → MRes
  | [], pRes, r => altFinal t beginPos pRes r
  | p :: rest, pRes, r =>
      if r.finished then altFinal t beginPos pRes r
      else
        match child p r with
        | none => none
        | some (.fatal e, r1) => some (.fatal e, r1)
        | some (.panicked, r1) => some (.panicked, r1)
        | some (.ok m, r1) =>
            if m.Match then
              match runT t m r1 with
              | (some e, _, r2) => some (.fatal e, r2)
              | (none, m1, r2) => some (.ok m1, r2)
            else
              altLoop child t beginPos rest
                (if m.PartialMatch then some m else pRes) r1

/-- The loop of `Concatenation.Match`: every child must match; a failing
child finalizes a failed result (carrying the failing child and the partial
flag), runs the transform and restores; running out of children finalizes a
successful result with the collected list, runs the transform and pops. -/
def concatLoop (child : Pattern → Reader → MRes) (t : Option TransformFn)
    (beginPos : ReaderPos) :
    List Pattern → List MatchResult → Bool → Reader → MRes
  | [], ms, _, r =>
      let res := MatchResult.mk true false (some beginPos)
        (some r.currentPosition) (.vlist ms) none none
      match runT t res r with
      | (some e, _, r1) => some (.fatal e, r1)
      | (none, m, r1) => some (.ok m, r1.popState)
  | p :: rest, ms, pFlag, r =>
      match child p r with
      | none => none
      | some (.fatal e, r1) => some (.fatal e, r1)
      | some (.panicked, r1) => some (.panicked, r1)
      | some (.ok m, r1) =>
          if m.Match then concatLoop child t beginPos rest (ms ++ [m]) true r1
          else
            let res := MatchResult.mk false pFlag (some beginPos)
              (some r1.currentPosition) .vnone none (some m)
            match runT t res r1 with
            | (some e, _, r2) => some (.fatal e, r2)
            | (none, m1, r2) => some (.ok m1, r2.restoreState)

/-- The min check of `Repetition.Match` after its loop ends.  `last` is the
Go variable `result`: the last child result, nil when the loop ran zero
iterations — in that case `result.Match` dereferences a nil pointer and the
run panics. -/
def repFinal (mn : Nat) (t : Option TransformFn) (beginPos : ReaderPos)
    (ms : List MatchResult) (last : Option MatchResult) (r : Reader) : MRes :=
  if ms.length < mn then
    match last with
    | none => some (.panicked, r)
    | some lastR =>
        let failedResult := if lastR.Match then none else some lastR
        let res := MatchResult.mk false false (some beginPos)
          (some r.currentPosition)
          .vnone (some ("expected minimum of " ++ toString mn ++ " repetitions"))
          failedResult
        match runT t res r with
        | (some e, _, r1) => some (.fatal e, r1)
        | (none, m, r1) => some (.ok m, r1.restoreState)
  else
    let res := MatchResult.mk true false (some beginPos)
      (some r.currentPosition) (.vlist ms) none none
    match runT t res r with
    | (some e, _, r1) => some (.fatal e, r1)
    | (none, m, r1) => some (.ok m, r1.popState)

/-- The loop of `Repetition.Match`: while the reader is not finished, run
the child; collect successes, stop at the configured max (`0` meaning no
bound) or at the first failure.  `itFuel` bounds the number of iterations
(the Go loop can run forever on a child that succeeds without consuming). -/
def repLoop (child : Pattern → Reader → MRes) (p : Pattern) (mn mx : Nat)
    (t : Option TransformFn) (beginPos : ReaderPos) :
    Nat → List MatchResult → Option MatchResult → Reader → MRes
  | itFuel, ms, last, r =>
      if r.finished then repFinal mn t beginPos ms last r
      else
        match itFuel with
        | 0 => none
        | itFuel' + 1 =>
            match child p r with
            | none => none
            | some (.fatal e, r1) => some (.fatal e, r1)
            | some (.panicked, r1) => some (.panicked, r1)
            | some (.ok m, r1) =>
                if m.Match then
                  let ms1 := ms ++ [m]
                  if mx ≠ 0 ∧ ms1.length = mx then
                    repFinal mn t beginPos ms1 (some m) r1
                  else repLoop child p mn mx t beginPos itFuel' ms1 (some m) r1
                else repFinal mn t beginPos ms (some m) r1

/-- The `Match` method of every pattern variant, by cases on the variant;
`fuel` only limits the depth of the recursion (each level hands `fuel` to
its children), never the shape of a terminating run. -/
def matchF : Nat → Pattern → Reader → MRes
  | 0, _, _ => none
  | fuel + 1, p, r =>
      match p with
      | .terminal s t =>
          let beginPos := r.currentPosition
          termLoop t beginPos s r.pushState
      | .charGroup g rev t =>
          let beginPos := r.currentPosition
          let r1 := r.pushState
          match r1.read with
          | (none, r2) =>
              let res := MatchResult.mk false false (some beginPos)
                (some r2.currentPosition) .vnone none none
              match runT t res r2 with
              | (some e, _, r3) => some (.fatal e, r3)
              | (none, m, r3) => some (.ok m, r3.restoreState)
          | (some rn, r2) =>
              let matched := if rev then !(g rn) else g rn
              if matched then
                let res := MatchResult.mk true false (some beginPos)
                  (some r2.currentPosition) (.vstr r2.string) none none
                match runT t res r2 with
                | (some e, _, r3) => some (.fatal e, r3)
                | (none, m, r3) => some (.ok m, r3.popState)
              else
                some (.ok (MatchResult.mk false false (some beginPos) none
                  .vnone none none), r2.restoreState)
      | .alternation ps t =>
          let beginPos := r.currentPosition
          altLoop (matchF fuel) t beginPos ps none r
      | .concatenation ps t =>
          let beginPos := r.currentPosition
          concatLoop (matchF fuel) t beginPos ps [] false r.pushState
      | .repetition p mn mx t =>
          let beginPos := r.currentPosition
          repLoop (matchF fuel) p mn mx t beginPos fuel [] none r.pushState
      | .exception must exc t =>
          let r1 := r.pushState
          match matchF fuel exc r1 with
          | none => none
          | some (.fatal e, r2) => some (.fatal e, r2)
          | some (.panicked, r2) => some (.panicked, r2)
          | some (.ok m, r2) =>
              if m.Match then
                let m1 := m.setMatch false
                let m2 := m1.setFailed (some m1)
                match runT t m2 r2 with
                | (some e, _, r3) => some (.fatal e, r3)
                | (none, m3, r3) => some (.ok m3, r3.restoreState)
              else
                let r3 := r2.popState
                match matchF fuel must r3 with
                | none => none
                | some (.fatal e, r4) => some (.fatal e, r4)
                | some (.panicked, r4) => some (.panicked, r4)
                | some (.ok m2, r4) =>
                    match runT t m2 r4 with
                    | (some e, _, r5) => some (.fatal e, r5)
                    | (none, m3, r5) => some (.ok m3, r5)
      | .eofP t =>
          let res := MatchResult.mk r.finished false none none .vnone none none
          match runT t res r with
          | (some e, _, r1) => some (.fatal e, r1)
          | (none, m, r1) => some (.ok m, r1)

/-- A transform that reports no error and leaves the reader untouched (it
may still rewrite the match result); `none` qualifies. -/
def BenignT (t : Option TransformFn) : Prop :=
  ∀ m r, ∃ m', runT t m r = (none, m', r)

/-- A benign transform that additionally preserves the `Match` flag. -/
def TameT (t : Option TransformFn) : Prop :=
  ∀ m r, ∃ m', runT t m r = (none, m', r) ∧ m'.Match = m.Match

/-- Every transform in the pattern tree is benign. -/
inductive Benign : Pattern → Prop where
  | terminal : ∀ s t, BenignT t → Benign (.terminal s t)
  | charGroup : ∀ g rev t, BenignT t → Benign (.charGroup g rev t)
  | alternation : ∀ ps t, BenignT t → (∀ p ∈ ps, Benign p) → Benign (.alternation ps t)
  | concatenation : ∀ ps t, BenignT t → (∀ p ∈ ps, Benign p) → Benign (.concatenation ps t)
  | repetition : ∀ p mn mx t, BenignT t → Benign p → Benign (.repetition p mn mx t)
  | exception : ∀ pm pe t, BenignT t → Benign pm → Benign pe → Benign (.exception pm pe t)
  | eofP : ∀ t, BenignT t → Benign (.eofP t)

/-- Every transform in the pattern tree is tame (benign and preserving the
`Match` flag). -/
inductive Tame : Pattern → Prop where
  | terminal : ∀ s t, TameT t → Tame (.terminal s t)
  | charGroup : ∀ g rev t, TameT t → Tame (.charGroup g rev t)
  | alternation : ∀ ps t, TameT t → (∀ p ∈ ps, Tame p) → Tame (.alternation ps t)
  | concatenation : ∀ ps t, TameT t → (∀ p ∈ ps, Tame p) → Tame (.concatenation ps t)
  | repetition : ∀ p mn mx t, TameT t → Tame p → Tame (.repetition p mn mx t)
  | exception : ∀ pm pe t, TameT t → Tame pm → Tame pe → Tame (.exception pm pe t)
  | eofP : ∀ t, TameT t → Tame (.eofP t)

/-- Every transform in the pattern tree is nil. -/
inductive NoTr : Pattern → Prop where
  | terminal : ∀ s, NoTr (.terminal s none)
  | charGroup : ∀ g rev, NoTr (.charGroup g rev none)
  | alternation : ∀ ps, (∀ p ∈ ps, NoTr p) → NoTr (.alternation ps none)
  | concatenation : ∀ ps, (∀ p ∈ ps, NoTr p) → NoTr (.concatenation ps none)
  | repetition : ∀ p mn mx, NoTr p → NoTr (.repetition p mn mx none)
  | exception : ∀ pm pe, NoTr pm → NoTr pe → NoTr (.exception pm pe none)
  | eofP : NoTr (.eofP none)

/-- The pattern tree contains no EOF node. -/
inductive NoEOF : Pattern → Prop where
  | terminal : ∀ s t, NoEOF (.terminal s t)
  | charGroup : ∀ g rev t, NoEOF (.charGroup g rev t)
  | alternation : ∀ ps t, (∀ p ∈ ps, NoEOF p) → NoEOF (.alternation ps t)
  | concatenation : ∀ ps t, (∀ p ∈ ps, NoEOF p) → NoEOF (.concatenation ps t)
  | repetition : ∀ p mn mx t, NoEOF p → NoEOF (.repetition p mn mx t)
  | exception : ∀ pm pe t, NoEOF pm → NoEOF pe → NoEOF (.exception pm pe t)

/-- The fields of the reader that no engine operation under benign
transforms ever writes. -/
def sameCore (r r' : Reader) : Prop :=
  r'.buf = r.buf ∧ r'.bufPosEnd = r.bufPosEnd ∧ r'.lines = r.lines ∧
  r'.linePosEnd = r.linePosEnd ∧ r'.errorStack = r.errorStack

/-- The cursor positions agree. -/
def samePos (r r' : Reader) : Prop :=
  r'.bufPos = r.bufPos ∧ r'.linePos = r.linePos

/-- What a run built from reads and balanced push/pop pairs does to the
reader: the core and the savepoint stacks are unchanged and the cursor only
moves forward, staying inside the buffer (or exactly in place). -/
def Advances (r r' : Reader) : Prop :=
  sameCore r r' ∧ r'.bufPosStack = r.bufPosStack ∧ r'.linePosStack = r.linePosStack ∧
  r.bufPos ≤ r'.bufPos ∧ (r'.bufPos ≤ r.bufPosEnd ∨ r'.bufPos = r.bufPos)

/-- What a pattern invocation under benign transforms may do: panic, or
return a result having only advanced the cursor, with the position fully
restored on failure when the transforms are also tame. -/
def okAdv (p : Pattern) (r : Reader) (o : Outcome) (r' : Reader) : Prop :=
  o = .panicked ∨
  ∃ m, o = .ok m ∧ Advances r r' ∧ (Tame p → m.Match = false → samePos r r')

/-- A transform that reports no error and leaves the reader untouched but
clears the result's `Match` flag. -/
def flipT : TransformFn := fun m r => (none, m.setMatch false, r)

/-- A transform that always reports a fatal error. -/
def failT : TransformFn := fun m r => (some "boom", m, r)

/-- Iterated `Read` (advancing n times from the front of the input). -/
def readN : Nat → Reader → Reader
  | 0, r => r
  | n + 1, r => readN n (r.read).2

/-- The Bool predicate counted by the line invariant: line start `s` is at
or before cursor `b` and strictly inside a buffer of length `e`. -/
def startIn (b e s : Nat) : Bool := decide (s ≤ b) && decide (s < e)

/-- The line-tracking invariant of a reader built by `NewReader` and
advanced by `Read`: the line counter equals the number of line starts at or
before the cursor that are strictly inside the buffer. -/
def ReaderLineWF (r : Reader) : Prop :=
  List.Sorted (· < ·) r.lines ∧ (∀ s ∈ r.lines, 0 < s ∧ s ≤ r.bufPosEnd) ∧
  r.linePosEnd = r.lines.length ∧ r.bufPos ≤ r.bufPosEnd ∧
  r.linePos = r.lines.countP (startIn r.bufPos r.bufPosEnd)

theorem TameT.benignT {t : Option TransformFn} (h : TameT t) : BenignT t :=
  fun m r => (h m r).imp fun _ hh => hh.1

theorem benignT_none : BenignT none := fun m r => ⟨m, rfl⟩

theorem tameT_none : TameT none := fun m r => ⟨m, rfl, rfl⟩

theorem Tame.toBenign {p : Pattern} (h : Tame p) : Benign p := by
  induction h with
  | terminal s t ht => exact .terminal s t ht.benignT
  | charGroup g rev t ht => exact .charGroup g rev t ht.benignT
  | alternation ps t ht _ ih => exact .alternation ps t ht.benignT ih
  | concatenation ps t ht _ ih => exact .concatenation ps t ht.benignT ih
  | repetition p mn mx t ht _ ih => exact .repetition p mn mx t ht.benignT ih
  | exception pm pe t ht _ _ ihm ihe => exact .exception pm pe t ht.benignT ihm ihe
  | eofP t ht => exact .eofP t ht.benignT

theorem NoTr.toTame {p : Pattern} (h : NoTr p) : Tame p := by
  induction h with
  | terminal s => exact .terminal s none tameT_none
  | charGroup g rev => exact .charGroup g rev none tameT_none
  | alternation ps _ ih => exact .alternation ps none tameT_none ih
  | concatenation ps _ ih => exact .concatenation ps none tameT_none ih
  | repetition p mn mx _ ih => exact .repetition p mn mx none tameT_none ih
  | exception pm pe _ _ ihm ihe => exact .exception pm pe none tameT_none ihm ihe
  | eofP => exact .eofP none tameT_none

theorem sameCore_refl (r : Reader) : sameCore r r := ⟨rfl, rfl, rfl, rfl, rfl⟩

theorem advances_refl (r : Reader) : Advances r r :=
  ⟨sameCore_refl r, rfl, rfl, Nat.le_refl _, Or.inr rfl⟩

theorem advances_trans {r1 r2 r3 : Reader} (h12 : Advances r1 r2)
    (h23 : Advances r2 r3) : Advances r1 r3 := by
  obtain ⟨⟨c1, c2, c3, c4, c5⟩, s1, s2, m1, b1⟩ := h12
  obtain ⟨⟨d1, d2, d3, d4, d5⟩, t1, t2, m2, b2⟩ := h23
  refine ⟨⟨d1.trans c1, d2.trans c2, d3.trans c3, d4.trans c4, d5.trans c5⟩,
    t1.trans s1, t2.trans s2, m1.trans m2, ?_⟩
  rw [c2] at b2
  omega

theorem Advances.read {r : Reader} : Advances r (r.read).2 := by
  unfold Reader.read
  split
  · exact ⟨⟨rfl, rfl, rfl, rfl, rfl⟩, rfl, rfl, Nat.le_succ _,
      Or.inl (by show r.bufPos + 1 ≤ r.bufPosEnd; omega)⟩
  · exact advances_refl r

theorem read_pair {r : Reader} {c : Option Char} {r' : Reader}
    (h : r.read = (c, r')) : Advances r r' := by
  have := @Advances.read r
  rw [h] at this
  exact this

theorem read_none {r : Reader} {r' : Reader}
    (h : r.read = (none, r')) : r' = r := by
  unfold Reader.read at h
  split at h
  · simp at h
  · exact (Prod.mk.injEq _ _ _ _ ▸ h).2.symm ▸ rfl

theorem pushState_advPos {r : Reader} :
    (r.pushState).bufPos = r.bufPos ∧ (r.pushState).linePos = r.linePos ∧
    sameCore r r.pushState ∧
    (r.pushState).bufPosStack = r.bufPos :: r.bufPosStack ∧
    (r.pushState).linePosStack = r.linePos :: r.linePosStack := by
  unfold Reader.pushState
  exact ⟨rfl, rfl, sameCore_refl _, rfl, rfl⟩

theorem popState_cons {r : Reader} {b l : Nat} {bs ls : List Nat}
    (hb : r.bufPosStack = b :: bs) (hl : r.linePosStack = l :: ls) :
    r.popState = { r with bufPosStack := bs, linePosStack := ls } := by
  unfold Reader.popState
  rw [hb, hl]

theorem restoreState_cons {r : Reader} {b l : Nat} {bs ls : List Nat}
    (hb : r.bufPosStack = b :: bs) (hl : r.linePosStack = l :: ls) :
    r.restoreState =
      { r with bufPos := b, bufPosStack := bs, linePos := l, linePosStack := ls } := by
  unfold Reader.restoreState
  rw [hb, hl]

theorem mres_inj {o1 o2 : Outcome} {r1 r2 : Reader}
    (h : (some (o1, r1) : MRes) = some (o2, r2)) : o1 = o2 ∧ r1 = r2 := by
  have h2 := Option.some.inj h
  exact ⟨congrArg Prod.fst h2, congrArg Prod.snd h2⟩

theorem tame_match {t : Option TransformFn} (hT : TameT t) {res m : MatchResult}
    {r r' : Reader} (h : runT t res r = (none, m, r')) : m.Match = res.Match := by
  obtain ⟨m2, h2, hM⟩ := hT res r
  rw [h] at h2
  simp only [Prod.mk.injEq] at h2
  obtain ⟨-, hm, -⟩ := h2
  rw [← hm] at hM
  exact hM

/-- The run of `TerminalString.Match` after the push: the loop only reads; it ends in a
pop exactly when the (pre-transform) result matched, in a restore exactly
when it failed. -/
theorem termLoop_spec {t : Option TransformFn} {bp : ReaderPos} (hB : BenignT t) :
    ∀ (cs : List Char) (r1 : Reader) (o : Outcome) (r' : Reader),
    termLoop t bp cs r1 = some (o, r') →
    ∃ m r2, o = .ok m ∧ Advances r1 r2 ∧
      ((r' = r2.popState ∧ (TameT t → m.Match = true)) ∨
       (r' = r2.restoreState ∧ (TameT t → m.Match = false))) := by
  intro cs
  induction cs with
  | nil =>
      intro r1 o r' h
      unfold termLoop at h
      dsimp only at h
      obtain ⟨m1, hm1⟩ := hB (MatchResult.mk true false (some bp)
        (some r1.currentPosition) (.vstr r1.string) none none) r1
      rw [hm1] at h
      obtain ⟨ho, hr⟩ := mres_inj h
      refine ⟨m1, r1, ho.symm, advances_refl r1, Or.inl ⟨hr.symm, fun hT => ?_⟩⟩
      exact tame_match hT hm1
  | cons c cs ih =>
      intro r1 o r' h
      unfold termLoop at h
      rcases hrd : r1.read with ⟨copt, rA⟩
      rw [hrd] at h
      have hAdv : Advances r1 rA := read_pair hrd
      cases copt with
      | none =>
          dsimp only at h
          obtain ⟨m1, hm1⟩ := hB (MatchResult.mk false false (some bp)
            (some rA.currentPosition) .vnone none none) rA
          rw [hm1] at h
          obtain ⟨ho, hr⟩ := mres_inj h
          refine ⟨m1, rA, ho.symm, hAdv, Or.inr ⟨hr.symm, fun hT => ?_⟩⟩
          exact tame_match hT hm1
      | some c2 =>
          dsimp only at h
          by_cases hc : c ≠ c2
          · simp only [if_pos hc] at h
            obtain ⟨m1, hm1⟩ := hB (MatchResult.mk false false (some bp)
              (some rA.currentPosition) .vnone none none) rA
            rw [hm1] at h
            obtain ⟨ho, hr⟩ := mres_inj h
            refine ⟨m1, rA, ho.symm, hAdv, Or.inr ⟨hr.symm, fun hT => ?_⟩⟩
            exact tame_match hT hm1
          · simp only [if_neg hc] at h
            obtain ⟨m, r2, ho, hA2, hrest⟩ := ih rA o r' h
            exact ⟨m, r2, ho, advances_trans hAdv hA2, hrest⟩

theorem samePos_refl (r : Reader) : samePos r r := ⟨rfl, rfl⟩

theorem samePos_trans {r1 r2 r3 : Reader} (h12 : samePos r1 r2)
    (h23 : samePos r2 r3) : samePos r1 r3 :=
  ⟨h23.1.trans h12.1, h23.2.trans h12.2⟩

/-- Popping after a run that started with a push rebalances the stacks and
keeps the advanced cursor. -/
theorem push_adv_pop {r r2 : Reader} (hA : Advances r.pushState r2) :
    Advances r r2.popState ∧ samePos r2 r2.popState := by
  obtain ⟨⟨c1, c2, c3, c4, c5⟩, s1, s2, m1, b1⟩ := hA
  have s1' : r2.bufPosStack = r.bufPos :: r.bufPosStack := s1
  have s2' : r2.linePosStack = r.linePos :: r.linePosStack := s2
  rw [popState_cons s1' s2']
  exact ⟨⟨⟨c1, c2, c3, c4, c5⟩, rfl, rfl, m1, b1⟩, rfl, rfl⟩

/-- Restoring after a run that started with a push rebalances the stacks and
puts the cursor back where the push happened. -/
theorem push_adv_restore {r r2 : Reader} (hA : Advances r.pushState r2) :
    Advances r r2.restoreState ∧ samePos r r2.restoreState := by
  obtain ⟨⟨c1, c2, c3, c4, c5⟩, s1, s2, m1, b1⟩ := hA
  have s1' : r2.bufPosStack = r.bufPos :: r.bufPosStack := s1
  have s2' : r2.linePosStack = r.linePos :: r.linePosStack := s2
  rw [restoreState_cons s1' s2']
  exact ⟨⟨⟨c1, c2, c3, c4, c5⟩, rfl, rfl, Nat.le_refl _, Or.inr rfl⟩, rfl, rfl⟩

/-- The failure exit of `Alternation.Match` leaves the reader alone. -/
theorem altFinal_spec {t : Option TransformFn} {bp : ReaderPos}
    {pRes : Option MatchResult} {r : Reader} {o : Outcome} {r' : Reader}
    (hB : BenignT t) (h : altFinal t bp pRes r = some (o, r')) :
    ∃ m, o = .ok m ∧ r' = r ∧ (TameT t → m.Match = false) := by
  unfold altFinal at h
  dsimp only at h
  obtain ⟨m1, hm1⟩ := hB (MatchResult.mk false false (some bp) (some bp)
    .vnone none pRes) r
  rw [hm1] at h
  obtain ⟨ho, hr⟩ := mres_inj h
  exact ⟨m1, ho.symm, hr.symm, fun hT => tame_match hT hm1⟩

/-- The child loop of `Alternation.Match`: under benign transforms it never
ends fatally; it only advances the cursor, and under tame transforms a
failed alternation has put the cursor back (each failed child already did). -/
theorem altLoop_spec {child : Pattern → Reader → MRes} {t : Option TransformFn}
    {bp : ReaderPos} (hB : BenignT t) :
    ∀ (ps : List Pattern) (pRes : Option MatchResult) (r1 : Reader)
      (o : Outcome) (r' : Reader),
    (∀ p ∈ ps, ∀ r o r', child p r = some (o, r') → okAdv p r o r') →
    altLoop child t bp ps pRes r1 = some (o, r') →
    o = .panicked ∨ ∃ m, o = .ok m ∧ Advances r1 r' ∧
      ((∀ p ∈ ps, Tame p) → TameT t → m.Match = false → samePos r1 r') := by
  intro ps
  induction ps with
  | nil =>
      intro pRes r1 o r' _ h
      obtain ⟨m, ho, hr, hMf⟩ := altFinal_spec hB h
      refine Or.inr ⟨m, ho, ?_, fun _ _ _ => ?_⟩
      · rw [hr]; exact advances_refl r1
      · rw [hr]; exact samePos_refl r1
  | cons p rest ih =>
      intro pRes r1 o r' Hc h
      unfold altLoop at h
      by_cases hf : r1.finished
      · rw [if_pos hf] at h
        obtain ⟨m, ho, hr, hMf⟩ := altFinal_spec hB h
        refine Or.inr ⟨m, ho, ?_, fun _ _ _ => ?_⟩
        · rw [hr]; exact advances_refl r1
        · rw [hr]; exact samePos_refl r1
      · rw [if_neg hf] at h
        rcases hch : child p r1 with - | ⟨oc, rX⟩
        · rw [hch] at h; exact absurd h (by simp)
        · rw [hch] at h
          have hok := Hc p (List.mem_cons_self p rest) r1 oc rX hch
          cases oc with
          | fatal e =>
              rcases hok with hpan | ⟨m, hm, -, -⟩
              · exact absurd hpan (by simp)
              · exact absurd hm (by simp)
          | panicked =>
              obtain ⟨ho, hr⟩ := mres_inj h
              exact Or.inl ho.symm
          | ok m =>
              rcases hok with hpan | ⟨m2, hm2, hAdv, hneut⟩
              · exact absurd hpan (by simp)
              · injection hm2 with hmm
                rw [← hmm] at hneut
                dsimp only at h
                by_cases hM : m.Match
                · rw [if_pos hM] at h
                  obtain ⟨m3, hm3⟩ := hB m rX
                  rw [hm3] at h
                  obtain ⟨ho, hr⟩ := mres_inj h
                  subst hr
                  refine Or.inr ⟨m3, ho.symm, hAdv, fun htame hT hMf => ?_⟩
                  have : m3.Match = m.Match := tame_match hT hm3
                  rw [hMf, hM] at this
                  exact absurd this (by simp)
                · rw [if_neg hM] at h
                  have hres := ih (if m.PartialMatch then some m else pRes) rX o r'
                    (fun q hq => Hc q (List.mem_cons_of_mem p hq)) h
                  rcases hres with hpan | ⟨m3, ho, hAdv2, hneut2⟩
                  · exact Or.inl hpan
                  · refine Or.inr ⟨m3, ho, advances_trans hAdv hAdv2, fun htame hT hMf => ?_⟩
                    have hnp : samePos r1 rX :=
                      hneut (htame p (List.mem_cons_self p rest))
                        (Bool.not_eq_true _ ▸ (by simpa using hM))
                    exact samePos_trans hnp (hneut2 (fun q hq => htame q (List.mem_cons_of_mem p hq)) hT hMf)

/-- The child loop of `Concatenation.Match`, run after the push: under
benign transforms it ends in a pop exactly when every child matched, in a
restore when one failed. -/
theorem concatLoop_spec {child : Pattern → Reader → MRes} {t : Option TransformFn}
    {bp : ReaderPos} (hB : BenignT t) :
    ∀ (ps : List Pattern) (acc : List MatchResult) (flag : Bool) (r1 : Reader)
      (o : Outcome) (r' : Reader),
    (∀ p ∈ ps, ∀ r o r', child p r = some (o, r') → okAdv p r o r') →
    concatLoop child t bp ps acc flag r1 = some (o, r') →
    o = .panicked ∨ ∃ m r2, o = .ok m ∧ Advances r1 r2 ∧
      ((r' = r2.popState ∧ (TameT t → m.Match = true)) ∨
       (r' = r2.restoreState ∧ (TameT t → m.Match = false))) := by
  intro ps
  induction ps with
  | nil =>
      intro acc flag r1 o r' _ h
      unfold concatLoop at h
      dsimp only at h
      obtain ⟨m1, hm1⟩ := hB (MatchResult.mk true false (some bp)
        (some r1.currentPosition) (.vlist acc) none none) r1
      rw [hm1] at h
      obtain ⟨ho, hr⟩ := mres_inj h
      exact Or.inr ⟨m1, r1, ho.symm, advances_refl r1,
        Or.inl ⟨hr.symm, fun hT => tame_match hT hm1⟩⟩
  | cons p rest ih =>
      intro acc flag r1 o r' Hc h
      unfold concatLoop at h
      rcases hch : child p r1 with - | ⟨oc, rX⟩
      · rw [hch] at h; exact absurd h (by simp)
      · rw [hch] at h
        have hok := Hc p (List.mem_cons_self p rest) r1 oc rX hch
        cases oc with
        | fatal e =>
            rcases hok with hpan | ⟨m, hm, -, -⟩
            · exact absurd hpan (by simp)
            · exact absurd hm (by simp)
        | panicked =>
            obtain ⟨ho, hr⟩ := mres_inj h
            exact Or.inl ho.symm
        | ok m =>
            rcases hok with hpan | ⟨m2, hm2, hAdv, -⟩
            · exact absurd hpan (by simp)
            · dsimp only at h
              by_cases hM : m.Match
              · rw [if_pos hM] at h
                have hres := ih (acc ++ [m]) true rX o r'
                  (fun q hq => Hc q (List.mem_cons_of_mem p hq)) h
                rcases hres with hpan | ⟨m3, r2, ho, hAdv2, hexit⟩
                · exact Or.inl hpan
                · exact Or.inr ⟨m3, r2, ho, advances_trans hAdv hAdv2, hexit⟩
              · rw [if_neg hM] at h
                obtain ⟨m3, hm3⟩ := hB (MatchResult.mk false flag (some bp)
                  (some rX.currentPosition) .vnone none (some m)) rX
                rw [hm3] at h
                obtain ⟨ho, hr⟩ := mres_inj h
                exact Or.inr ⟨m3, rX, ho.symm, hAdv,
                  Or.inr ⟨hr.symm, fun hT => tame_match hT hm3⟩⟩

/-- The min check of `Repetition.Match`: a pop on success, a restore on a
reported min failure — or the Go nil dereference when the loop never ran. -/
theorem repFinal_spec {mn : Nat} {t : Option TransformFn} {bp : ReaderPos}
    {acc : List MatchResult} {last : Option MatchResult} {r : Reader}
    {o : Outcome} {r' : Reader} (hB : BenignT t)
    (h : repFinal mn t bp acc last r = some (o, r')) :
    o = .panicked ∨ ∃ m, o = .ok m ∧
      ((r' = r.popState ∧ (TameT t → m.Match = true)) ∨
       (r' = r.restoreState ∧ (TameT t → m.Match = false))) := by
  unfold repFinal at h
  by_cases hlen : acc.length < mn
  · rw [if_pos hlen] at h
    cases last with
    | none =>
        obtain ⟨ho, hr⟩ := mres_inj h
        exact Or.inl ho.symm
    | some lastR =>
        dsimp only at h
        obtain ⟨m1, hm1⟩ := hB (MatchResult.mk false false (some bp)
          (some r.currentPosition) .vnone
          (some ("expected minimum of " ++ toString mn ++ " repetitions"))
          (if lastR.Match then none else some lastR)) r
        rw [hm1] at h
        obtain ⟨ho, hr⟩ := mres_inj h
        exact Or.inr ⟨m1, ho.symm, Or.inr ⟨hr.symm, fun hT => tame_match hT hm1⟩⟩
  · rw [if_neg hlen] at h
    dsimp only at h
    obtain ⟨m1, hm1⟩ := hB (MatchResult.mk true false (some bp)
      (some r.currentPosition) (.vlist acc) none none) r
    rw [hm1] at h
    obtain ⟨ho, hr⟩ := mres_inj h
    exact Or.inr ⟨m1, ho.symm, Or.inl ⟨hr.symm, fun hT => tame_match hT hm1⟩⟩

/-- The child loop of `Repetition.Match`, run after the push. -/
theorem repLoop_spec {child : Pattern → Reader → MRes} {p : Pattern}
    {mn mx : Nat} {t : Option TransformFn} {bp : ReaderPos} (hB : BenignT t)
    (Hc : ∀ r o r', child p r = some (o, r') → okAdv p r o r') :
    ∀ (itFuel : Nat) (acc : List MatchResult) (last : Option MatchResult)
      (r1 : Reader) (o : Outcome) (r' : Reader),
    repLoop child p mn mx t bp itFuel acc last r1 = some (o, r') →
    o = .panicked ∨ ∃ m r2, o = .ok m ∧ Advances r1 r2 ∧
      ((r' = r2.popState ∧ (TameT t → m.Match = true)) ∨
       (r' = r2.restoreState ∧ (TameT t → m.Match = false))) := by
  intro itFuel
  induction itFuel with
  | zero =>
      intro acc last r1 o r' h
      unfold repLoop at h
      by_cases hf : r1.finished
      · rw [if_pos hf] at h
        rcases repFinal_spec hB h with hpan | ⟨m, ho, hexit⟩
        · exact Or.inl hpan
        · exact Or.inr ⟨m, r1, ho, advances_refl r1, hexit⟩
      · rw [if_neg hf] at h
        exact absurd h (by simp)
  | succ itFuel ih =>
      intro acc last r1 o r' h
      unfold repLoop at h
      by_cases hf : r1.finished
      · rw [if_pos hf] at h
        rcases repFinal_spec hB h with hpan | ⟨m, ho, hexit⟩
        · exact Or.inl hpan
        · exact Or.inr ⟨m, r1, ho, advances_refl r1, hexit⟩
      · rw [if_neg hf] at h
        rcases hch : child p r1 with - | ⟨oc, rX⟩
        · rw [hch] at h; exact absurd h (by simp)
        · rw [hch] at h
          have hok := Hc r1 oc rX hch
          cases oc with
          | fatal e =>
              rcases hok with hpan | ⟨m, hm, -, -⟩
              · exact absurd hpan (by simp)
              · exact absurd hm (by simp)
          | panicked =>
              obtain ⟨ho, hr⟩ := mres_inj h
              exact Or.inl ho.symm
          | ok m =>
              rcases hok with hpan | ⟨m2, hm2, hAdv, -⟩
              · exact absurd hpan (by simp)
              · dsimp only at h
                by_cases hM : m.Match
                · rw [if_pos hM] at h
                  by_cases hmx : mx ≠ 0 ∧ (acc ++ [m]).length = mx
                  · rw [if_pos hmx] at h
                    rcases repFinal_spec hB h with hpan | ⟨m3, ho, hexit⟩
                    · exact Or.inl hpan
                    · exact Or.inr ⟨m3, rX, ho, hAdv, hexit⟩
                  · rw [if_neg hmx] at h
                    rcases ih (acc ++ [m]) (some m) rX o r' h with
                      hpan | ⟨m3, r2, ho, hAdv2, hexit⟩
                    · exact Or.inl hpan
                    · exact Or.inr ⟨m3, r2, ho, advances_trans hAdv hAdv2, hexit⟩
                · rw [if_neg hM] at h
                  rcases repFinal_spec hB h with hpan | ⟨m3, ho, hexit⟩
                  · exact Or.inl hpan
                  · exact Or.inr ⟨m3, rX, ho, hAdv, hexit⟩

theorem okAdv_not_fatal {p : Pattern} {r : Reader} {e : String} {r' : Reader}
    (h : okAdv p r (.fatal e) r') : False := by
  rcases h with h | ⟨m, hm, -, -⟩
  · exact absurd h (by simp)
  · exact absurd hm (by simp)

theorem samePos_push (r : Reader) : samePos r r.pushState := ⟨rfl, rfl⟩

/-- The central run lemma: under benign transforms a pattern invocation that
returns (rather than panicking) never ends fatally, leaves the reader core
and both savepoint stacks exactly as they were and only moves the cursor
forward within the buffer; when the transforms are moreover tame and the
returned result is a failure, the cursor is back where it started. -/
theorem matchF_spec : ∀ (fuel : Nat) (p : Pattern) (r : Reader) (o : Outcome)
    (r' : Reader), Benign p → matchF fuel p r = some (o, r') → okAdv p r o r' := by
  intro fuel
  induction fuel with
  | zero => intro p r o r' _ h; exact absurd h (by simp [matchF])
  | succ fuel ih =>
      intro p r o r' hben h
      cases p with
      | terminal s t =>
          cases hben with
          | terminal _ _ hBt =>
            unfold matchF at h
            dsimp only at h
            obtain ⟨m, r2, ho, hAdv, hexit⟩ := termLoop_spec hBt s r.pushState o r' h
            rcases hexit with ⟨hr, hMt⟩ | ⟨hr, hMf⟩
            · obtain ⟨hA2, -⟩ := push_adv_pop hAdv
              refine Or.inr ⟨m, ho, ?_, fun htame hMf2 => ?_⟩
              · rw [hr]; exact hA2
              · cases htame with
                | terminal _ _ hTt =>
                  exact absurd ((hMt hTt).symm.trans hMf2) (by simp)
            · obtain ⟨hA2, hsp⟩ := push_adv_restore hAdv
              refine Or.inr ⟨m, ho, ?_, fun _ _ => ?_⟩
              · rw [hr]; exact hA2
              · rw [hr]; exact hsp
      | charGroup g rev t =>
          cases hben with
          | charGroup _ _ _ hBt =>
            unfold matchF at h
            dsimp only at h
            rcases hrd : (r.pushState).read with ⟨copt, rA⟩
            rw [hrd] at h
            have hAdv : Advances r.pushState rA := read_pair hrd
            cases copt with
            | none =>
                dsimp only at h
                obtain ⟨m1, hm1⟩ := hBt (MatchResult.mk false false
                  (some r.currentPosition) (some rA.currentPosition) .vnone none none) rA
                rw [hm1] at h
                obtain ⟨ho, hr⟩ := mres_inj h
                obtain ⟨hA2, hsp⟩ := push_adv_restore hAdv
                refine Or.inr ⟨m1, ho.symm, ?_, fun _ _ => ?_⟩
                · rw [← hr]; exact hA2
                · rw [← hr]; exact hsp
            | some rn =>
                dsimp only at h
                by_cases hgm : (if rev then !(g rn) else g rn) = true
                · rw [if_pos hgm] at h
                  obtain ⟨m1, hm1⟩ := hBt (MatchResult.mk true false
                    (some r.currentPosition) (some rA.currentPosition)
                    (.vstr rA.string) none none) rA
                  rw [hm1] at h
                  obtain ⟨ho, hr⟩ := mres_inj h
                  obtain ⟨hA2, -⟩ := push_adv_pop hAdv
                  refine Or.inr ⟨m1, ho.symm, ?_, fun htame hMf2 => ?_⟩
                  · rw [← hr]; exact hA2
                  · cases htame with
                    | charGroup _ _ _ hTt =>
                      exact absurd ((tame_match hTt hm1).symm.trans hMf2)
                        (by simp [MatchResult.Match])
                · rw [if_neg hgm] at h
                  obtain ⟨ho, hr⟩ := mres_inj h
                  obtain ⟨hA2, hsp⟩ := push_adv_restore hAdv
                  refine Or.inr ⟨_, ho.symm, ?_, fun _ _ => ?_⟩
                  · rw [← hr]; exact hA2
                  · rw [← hr]; exact hsp
      | alternation ps t =>
          cases hben with
          | alternation _ _ hBt hkids =>
            unfold matchF at h
            dsimp only at h
            have hres := altLoop_spec hBt ps none r o r'
              (fun q hq rr oo rr' hc => ih q rr oo rr' (hkids q hq) hc) h
            rcases hres with hpan | ⟨m, ho, hAdv, hneut⟩
            · exact Or.inl hpan
            · refine Or.inr ⟨m, ho, hAdv, fun htame hMf => ?_⟩
              cases htame with
              | alternation _ _ hTt hTkids => exact hneut hTkids hTt hMf
      | concatenation ps t =>
          cases hben with
          | concatenation _ _ hBt hkids =>
            unfold matchF at h
            dsimp only at h
            have hres := concatLoop_spec hBt ps [] false r.pushState o r'
              (fun q hq rr oo rr' hc => ih q rr oo rr' (hkids q hq) hc) h
            rcases hres with hpan | ⟨m, r2, ho, hAdv, hexit⟩
            · exact Or.inl hpan
            · rcases hexit with ⟨hr, hMt⟩ | ⟨hr, hMf⟩
              · obtain ⟨hA2, -⟩ := push_adv_pop hAdv
                refine Or.inr ⟨m, ho, ?_, fun htame hMf2 => ?_⟩
                · rw [hr]; exact hA2
                · cases htame with
                  | concatenation _ _ hTt _ =>
                    exact absurd ((hMt hTt).symm.trans hMf2) (by simp)
              · obtain ⟨hA2, hsp⟩ := push_adv_restore hAdv
                refine Or.inr ⟨m, ho, ?_, fun _ _ => ?_⟩
                · rw [hr]; exact hA2
                · rw [hr]; exact hsp
      | repetition pc mn mx t =>
          cases hben with
          | repetition _ _ _ _ hBt hBc =>
            unfold matchF at h
            dsimp only at h
            have hres := repLoop_spec hBt
              (fun rr oo rr' hc => ih pc rr oo rr' hBc hc) fuel [] none
              r.pushState o r' h
            rcases hres with hpan | ⟨m, r2, ho, hAdv, hexit⟩
            · exact Or.inl hpan
            · rcases hexit with ⟨hr, hMt⟩ | ⟨hr, hMf⟩
              · obtain ⟨hA2, -⟩ := push_adv_pop hAdv
                refine Or.inr ⟨m, ho, ?_, fun htame hMf2 => ?_⟩
                · rw [hr]; exact hA2
                · cases htame with
                  | repetition _ _ _ _ hTt _ =>
                    exact absurd ((hMt hTt).symm.trans hMf2) (by simp)
              · obtain ⟨hA2, hsp⟩ := push_adv_restore hAdv
                refine Or.inr ⟨m, ho, ?_, fun _ _ => ?_⟩
                · rw [hr]; exact hA2
                · rw [hr]; exact hsp
      | exception pm pe t =>
          cases hben with
          | exception _ _ _ hBt hBm hBe =>
            unfold matchF at h
            dsimp only at h
            rcases hexc : matchF fuel pe r.pushState with - | ⟨oc, r2⟩
            · rw [hexc] at h; exact absurd h (by simp)
            · rw [hexc] at h
              have hok := ih pe r.pushState oc r2 hBe hexc
              cases oc with
              | fatal e => exact absurd hok okAdv_not_fatal
              | panicked =>
                  obtain ⟨ho, hr⟩ := mres_inj h
                  exact Or.inl ho.symm
              | ok m =>
                  rcases hok with hpan | ⟨m2, hm2, hAdv, hneut⟩
                  · exact absurd hpan (by simp)
                  · injection hm2 with hmm
                    rw [← hmm] at hneut
                    dsimp only at h
                    by_cases hM : m.Match
                    · rw [if_pos hM] at h
                      obtain ⟨m3, hm3⟩ := hBt
                        ((m.setMatch false).setFailed (some (m.setMatch false))) r2
                      rw [hm3] at h
                      obtain ⟨ho, hr⟩ := mres_inj h
                      obtain ⟨hA2, hsp⟩ := push_adv_restore hAdv
                      refine Or.inr ⟨m3, ho.symm, ?_, fun _ _ => ?_⟩
                      · rw [← hr]; exact hA2
                      · rw [← hr]; exact hsp
                    · rw [if_neg hM] at h
                      obtain ⟨hA3, hsp3⟩ := push_adv_pop hAdv
                      rcases hmust : matchF fuel pm r2.popState with - | ⟨oc2, r4⟩
                      · rw [hmust] at h; exact absurd h (by simp)
                      · rw [hmust] at h
                        have hok2 := ih pm r2.popState oc2 r4 hBm hmust
                        cases oc2 with
                        | fatal e => exact absurd hok2 okAdv_not_fatal
                        | panicked =>
                            obtain ⟨ho, hr⟩ := mres_inj h
                            exact Or.inl ho.symm
                        | ok mm =>
                            rcases hok2 with hpan | ⟨mm2, hmm2, hAdv2, hneut2⟩
                            · exact absurd hpan (by simp)
                            · injection hmm2 with hmmm
                              rw [← hmmm] at hneut2
                              dsimp only at h
                              obtain ⟨m3, hm3⟩ := hBt mm r4
                              rw [hm3] at h
                              obtain ⟨ho, hr⟩ := mres_inj h
                              refine Or.inr ⟨m3, ho.symm, ?_, fun htame hMf => ?_⟩
                              · rw [← hr]; exact advances_trans hA3 hAdv2
                              · rw [← hr]
                                cases htame with
                                | exception _ _ _ hTt hTm hTe =>
                                  have hmmMf : mm.Match = false :=
                                    (tame_match hTt hm3).symm.trans hMf
                                  have hs34 : samePos r2.popState r4 := hneut2 hTm hmmMf
                                  have hs02 : samePos r.pushState r2 :=
                                    hneut hTe (by simpa using hM)
                                  have hs03 : samePos r r2.popState :=
                                    samePos_trans (samePos_trans (samePos_push r) hs02) hsp3
                                  exact samePos_trans hs03 hs34
      | eofP t =>
          cases hben with
          | eofP _ hBt =>
            unfold matchF at h
            dsimp only at h
            obtain ⟨m1, hm1⟩ := hBt (MatchResult.mk r.finished false none none
              .vnone none none) r
            rw [hm1] at h
            obtain ⟨ho, hr⟩ := mres_inj h
            refine Or.inr ⟨m1, ho.symm, ?_, fun _ _ => ?_⟩
            · rw [← hr]; exact advances_refl r
            · rw [← hr]; exact samePos_refl r

/-- Claim C1, counterexample to the claim as stated: `flipT` is a transform
that returns nil and does not move the reader, yet with it
`TerminalString("a").Match` on input `"a"` returns a result with
`Match = false` while the reader has advanced from position 0 to position 1
— so a failed return with only benign (nil-error, reader-preserving)
transforms does not imply that the position is restored. -/
theorem claim1_cex :
    BenignT (some flipT) ∧
    matchF 1 (.terminal ['a'] (some flipT)) (NewReader ['a']) =
      some (.ok (.mk false false (some ⟨0, 0, 0⟩) (some ⟨1, 1, 0⟩)
          (.vstr ['a']) none none),
        { NewReader ['a'] with bufPos := 1 }) ∧
    (NewReader ['a']).bufPos = 0 :=
  ⟨fun m r => ⟨m.setMatch false, rfl⟩, rfl, rfl⟩

/-- Claim C1 (amended): for every pattern variant and every reader state, if
`Match` returns a result with `matched = false` and no fatal error occurred
(all transform callbacks are nil, or return nil, do not move the reader and
do not modify the result's matched flag), the reader's `(abs, line)`
position after the call equals its position before the call. -/
theorem claim1_backtracking_neutrality (fuel : Nat) (p : Pattern)
    (r r' : Reader) (m : MatchResult) (htame : Tame p)
    (h : matchF fuel p r = some (.ok m, r')) (hMf : m.Match = false) :
    r'.bufPos = r.bufPos ∧ r'.linePos = r.linePos := by
  rcases matchF_spec fuel p r _ r' htame.toBenign h with hpan | ⟨m2, hm2, -, hneut⟩
  · exact absurd hpan (by simp)
  · injection hm2 with hmm
    rw [← hmm] at hneut
    exact hneut htame hMf

/-- Witness for C1: `TerminalString("b")` (no transforms) fails on input
`"a"` and the reader is back at the start. -/
theorem claim1_witness :
    matchF 1 (.terminal ['b'] none) (NewReader ['a']) =
      some (.ok (.mk false false (some ⟨0, 0, 0⟩) (some ⟨1, 1, 0⟩)
        .vnone none none), NewReader ['a']) ∧
    (NewReader ['a']).bufPos = (NewReader ['a']).bufPos ∧
    (NewReader ['a']).linePos = (NewReader ['a']).linePos :=
  ⟨rfl, claim1_backtracking_neutrality 1 (.terminal ['b'] none) (NewReader ['a'])
    (NewReader ['a'])
    (.mk false false (some ⟨0, 0, 0⟩) (some ⟨1, 1, 0⟩) .vnone none none)
    (NoTr.toTame (.terminal ['b'])) rfl rfl⟩

/-- Claim C2, counterexample to the claim as stated: when the transform of
`TerminalString("")` reports a fatal error, the method returns without
popping or restoring the entry it pushed — after that call the savepoint
stack is one deeper than before, so the claimed balance on every
control-flow exit including the fatal-error path fails. -/
theorem claim2_cex :
    matchF 1 (.terminal [] (some failT)) (NewReader []) =
      some (.fatal "boom", (NewReader []).pushState) ∧
    ((NewReader []).pushState).bufPosStack.length =
      (NewReader []).bufPosStack.length + 1 :=
  ⟨rfl, rfl⟩

/-- Claim C2 (amended): for every pattern invocation that returns a result
(no fatal transform error — in particular whenever all transforms are nil or
benign), the savepoint stack depth after the invocation equals the depth
before.  The balance does not extend to every fatal-error exit: a pattern
may propagate a fatal transform error without popping or restoring the
entry it pushed, as the counterexample's `TerminalString` run does (while
other fatal exits, such as Exception's mustMatch-branch transform, happen
after the entry was already popped and stay balanced). -/
theorem claim2_savepoint_balance (fuel : Nat) (p : Pattern) (r r' : Reader)
    (m : MatchResult) (hben : Benign p)
    (h : matchF fuel p r = some (.ok m, r')) :
    r'.bufPosStack.length = r.bufPosStack.length ∧
    r'.linePosStack.length = r.linePosStack.length := by
  rcases matchF_spec fuel p r _ r' hben h with hpan | ⟨m2, hm2, hAdv, -⟩
  · exact absurd hpan (by simp)
  · obtain ⟨-, s1, s2, -, -⟩ := hAdv
    exact ⟨by rw [s1], by rw [s2]⟩

/-- Witness for C2: a successful `TerminalString("a")` run on `"a"` keeps
the stack depth at 1. -/
theorem claim2_witness :
    matchF 1 (.terminal ['a'] none) (NewReader ['a']) =
      some (.ok (.mk true false (some ⟨0, 0, 0⟩) (some ⟨1, 1, 0⟩)
        (.vstr ['a']) none none), { NewReader ['a'] with bufPos := 1 }) ∧
    ({ NewReader ['a'] with bufPos := 1 } : Reader).bufPosStack.length =
      (NewReader ['a']).bufPosStack.length ∧
    ({ NewReader ['a'] with bufPos := 1 } : Reader).linePosStack.length =
      (NewReader ['a']).linePosStack.length :=
  ⟨rfl, claim2_savepoint_balance 1 (.terminal ['a'] none) (NewReader ['a'])
    { NewReader ['a'] with bufPos := 1 }
    (.mk true false (some ⟨0, 0, 0⟩) (some ⟨1, 1, 0⟩) (.vstr ['a']) none none)
    (Benign.terminal ['a'] none benignT_none) rfl⟩

theorem setMatch_Match (m : MatchResult) (b : Bool) : (m.setMatch b).Match = b := by
  cases m; rfl

/-- A successful read that started from a push restores to exactly the
original reader (the pushed savepoint carries the original position and the
read touches nothing else). -/
theorem push_adv_restore_eq {r r2 : Reader} (hA : Advances r.pushState r2) :
    r2.restoreState = r := by
  obtain ⟨⟨c1, c2, c3, c4, c5⟩, s1, s2, -, -⟩ := hA
  have s1' : r2.bufPosStack = r.bufPos :: r.bufPosStack := s1
  have s2' : r2.linePosStack = r.linePos :: r.linePosStack := s2
  rw [restoreState_cons s1' s2']
  exact Reader.ext c1 rfl c2 rfl c3 rfl c4 rfl c5

/-- Claim C3: the failing zero-iteration case of `Repetition.Match`.  On a
reader already at end of input, a repetition with `min = 1` collects no
child results, so the Go variable `result` is still nil when the min check
dereferences `result.Match`: the run panics instead of returning the
documented failed result with the "expected minimum" error. -/
theorem claim3_repetition_min_panic :
    matchF 2 (.repetition (.terminal ['a'] none) 1 0 none) (NewReader []) =
      some (.panicked, (NewReader []).pushState) := rfl

/-- Claim C4: ordered choice.  If the head child of an alternation matches
at the current (unfinished) position, the alternation's answer is that
child's result with the alternation's transform applied, whatever the
remaining children are — they are never invoked.  If the head child fails
without a partial match and with the reader restored, the alternation
behaves exactly like the alternation of the remaining children. -/
theorem claim4_ordered_choice (fuel : Nat) (p1 : Pattern) (t : Option TransformFn)
    (r r1 : Reader) (m1 : MatchResult) (hfin : r.finished = false)
    (h1 : matchF fuel p1 r = some (.ok m1, r1)) :
    (m1.Match = true → ∀ rest : List Pattern,
      matchF (fuel + 1) (.alternation (p1 :: rest) t) r =
        match runT t m1 r1 with
        | (some e, _, r2) => some (.fatal e, r2)
        | (none, m2, r2) => some (.ok m2, r2)) ∧
    (m1.Match = false → m1.PartialMatch = false → r1 = r →
      ∀ rest : List Pattern,
        matchF (fuel + 1) (.alternation (p1 :: rest) t) r =
          matchF (fuel + 1) (.alternation rest t) r) := by
  constructor
  · intro hM rest
    show altLoop (matchF fuel) t r.currentPosition (p1 :: rest) none r = _
    unfold altLoop
    rw [if_neg (by simp [hfin]), h1]
    dsimp only
    rw [if_pos hM]
  · intro hM hP hreq rest
    show altLoop (matchF fuel) t r.currentPosition (p1 :: rest) none r =
      matchF (fuel + 1) (.alternation rest t) r
    conv_lhs => unfold altLoop
    rw [if_neg (by simp [hfin]), h1]
    dsimp only
    rw [if_neg (by simp [hM]), hP, hreq]
    simp only [Bool.false_eq_true, if_false]
    rfl

/-- Witness for C4 at `Alternation[TerminalString("b"), …]` on input "b". -/
theorem claim4_witness :
    (NewReader ['b']).finished = false ∧
    matchF 1 (.terminal ['b'] none) (NewReader ['b']) =
      some (.ok (.mk true false (some ⟨0, 0, 0⟩) (some ⟨1, 1, 0⟩)
        (.vstr ['b']) none none), { NewReader ['b'] with bufPos := 1 }) ∧
    ((MatchResult.mk true false (some ⟨0, 0, 0⟩) (some ⟨1, 1, 0⟩)
        (.vstr ['b']) none none).Match = true →
      ∀ rest : List Pattern,
        matchF 2 (.alternation (.terminal ['b'] none :: rest) none) (NewReader ['b']) =
          match runT none (MatchResult.mk true false (some ⟨0, 0, 0⟩)
            (some ⟨1, 1, 0⟩) (.vstr ['b']) none none)
            { NewReader ['b'] with bufPos := 1 } with
          | (some e, _, r2) => some (.fatal e, r2)
          | (none, m2, r2) => some (.ok m2, r2)) :=
  ⟨rfl, rfl,
    (claim4_ordered_choice 1 (.terminal ['b'] none) none (NewReader ['b'])
      { NewReader ['b'] with bufPos := 1 }
      (.mk true false (some ⟨0, 0, 0⟩) (some ⟨1, 1, 0⟩) (.vstr ['b']) none none)
      rfl rfl).1⟩

/-- Claim C10: a finished reader makes `Alternation.Match` return a failed
result before invoking any child — the answer does not depend on the child
list at all, even when a child (such as EOF) would match at end of input. -/
theorem claim10_alternation_finished (fuel : Nat) (ps : List Pattern)
    (t : Option TransformFn) (r : Reader) (hfin : r.finished = true) :
    matchF (fuel + 1) (.alternation ps t) r =
      (match runT t (MatchResult.mk false false (some r.currentPosition)
          (some r.currentPosition) .vnone none none) r with
       | (some e, _, r1) => some (.fatal e, r1)
       | (none, m, r1) => some (.ok m, r1)) ∧
    (t = none →
      matchF (fuel + 1) (.alternation ps t) r =
        some (.ok (.mk false false (some r.currentPosition)
          (some r.currentPosition) .vnone none none), r)) := by
  have hmain : matchF (fuel + 1) (.alternation ps t) r =
      (match runT t (MatchResult.mk false false (some r.currentPosition)
          (some r.currentPosition) .vnone none none) r with
       | (some e, _, r1) => some (.fatal e, r1)
       | (none, m, r1) => some (.ok m, r1)) := by
    show altLoop (matchF fuel) t r.currentPosition ps none r = _
    cases ps with
    | nil => rfl
    | cons p rest =>
        unfold altLoop
        rw [if_pos hfin]
        rfl
  refine ⟨hmain, fun ht => ?_⟩
  rw [hmain, ht]
  rfl

/-- Witness for C10: on the finished empty reader, an alternation whose only
child is EOF — which would match there — still fails without calling it. -/
theorem claim10_witness :
    (NewReader []).finished = true ∧
    matchF 1 (.alternation [.eofP none] none) (NewReader []) =
      some (.ok (.mk false false (some ⟨0, 0, 0⟩) (some ⟨0, 0, 0⟩)
        .vnone none none), NewReader []) :=
  ⟨rfl, (claim10_alternation_finished 0 [.eofP none] none (NewReader []) rfl).2 rfl⟩

/-- Claim C7, counterexample to the claim as stated: a CharacterGroup whose
transform always reports a fatal error, matched where the predicate test
fails ('b' read, group is {'a'}): the call returns normally (so the
transform was never invoked on this branch) and the result's `EndPos` is nil
(so the failure's end position does not record the attempt). -/
theorem claim7_cex :
    matchF 1 (.charGroup (fun c => c = 'a') false (some failT)) (NewReader ['b']) =
      some (.ok (.mk false false (some ⟨0, 0, 0⟩) none .vnone none none),
        NewReader ['b']) := rfl

/-- Claim C7 (amended): CharacterGroup invokes its transform before the
pop/restore on the success branch and on the end-of-input failure branch
(witnessed by an always-fatal transform aborting the call there), but on the
predicate-failure branch the transform is not invoked (the answer does not
depend on it), the result's end position is left unset, and the reader is
restored to its pre-attempt state. -/
theorem claim7_chargroup_transform (fuel : Nat) (g : Char → Bool) (rev : Bool)
    (e : String) (r : Reader) :
    (r.finished = true →
      matchF (fuel + 1) (.charGroup g rev (some (fun m rr => (some e, m, rr)))) r =
        some (.fatal e, r.pushState)) ∧
    (∀ c rA, r.pushState.read = (some c, rA) →
      ((if rev then !(g c) else g c) = true →
        matchF (fuel + 1) (.charGroup g rev (some (fun m rr => (some e, m, rr)))) r =
          some (.fatal e, rA)) ∧
      ((if rev then !(g c) else g c) = false →
        ∀ t : Option TransformFn,
          matchF (fuel + 1) (.charGroup g rev t) r =
            some (.ok (.mk false false (some r.currentPosition) none
              .vnone none none), r))) := by
  constructor
  · intro hfin
    show (match r.pushState.read with
      | (none, r2) => _
      | (some rn, r2) => _) = _
    have hrd : r.pushState.read = (none, r.pushState) := by
      unfold Reader.read
      rw [if_neg (by simp only [Reader.pushState]; simpa [Reader.finished] using hfin)]
    rw [hrd]
    rfl
  · intro c rA hrd
    have hrestore : rA.restoreState = r :=
      push_adv_restore_eq (read_pair hrd)
    constructor
    · intro hg
      show (match r.pushState.read with
        | (none, r2) => _
        | (some rn, r2) => _) = _
      rw [hrd]
      dsimp only
      rw [if_pos hg]
      rfl
    · intro hg t
      show (match r.pushState.read with
        | (none, r2) => _
        | (some rn, r2) => _) = _
      rw [hrd]
      dsimp only
      rw [if_neg (by simp [hg]), hrestore]

/-- Witness for C7: the transform fires (fatally) on the end-of-input
branch. -/
theorem claim7_witness :
    (NewReader []).finished = true ∧
    matchF 1 (.charGroup (fun c => c = 'a') false
        (some (fun m rr => (some "boom", m, rr)))) (NewReader []) =
      some (.fatal "boom", (NewReader []).pushState) :=
  ⟨rfl, (claim7_chargroup_transform 0 (fun c => c = 'a') false "boom"
    (NewReader [])).1 rfl⟩

/-- Claim C8, counterexample to the claim as stated: Exception(must =
"b", except = "a") on input "a".  The except pattern matches, and the
returned failure's `Failed` field holds a record with `Match = false` — the
mutated result record itself — not a record describing the successful except
match (which would have `Match = true`). -/
theorem claim8_cex :
    matchF 2 (.exception (.terminal ['b'] none) (.terminal ['a'] none) none)
        (NewReader ['a']) =
      some (.ok (.mk false false (some ⟨0, 0, 0⟩) (some ⟨1, 1, 0⟩)
          (.vstr ['a']) none
          (some (.mk false false (some ⟨0, 0, 0⟩) (some ⟨1, 1, 0⟩)
            (.vstr ['a']) none none))),
        NewReader ['a']) := rfl

/-- Claim C8 (amended): whenever the except sub-pattern (with benign
transforms) matches, Exception clears the matched flag on the except result,
points `Failed` at that same mutated record (Go aliases the record to
itself; one unfolding is kept here), invokes its transform on it, and
restores the reader to the entry state. -/
theorem claim8_exception_failed (fuel : Nat) (pm pe : Pattern)
    (t : Option TransformFn) (r r2 : Reader) (me : MatchResult)
    (hben : Benign pe) (hT : BenignT t)
    (hexc : matchF fuel pe r.pushState = some (.ok me, r2))
    (hM : me.Match = true) :
    ∃ mt, runT t ((me.setMatch false).setFailed (some (me.setMatch false))) r2 =
        (none, mt, r2) ∧
      matchF (fuel + 1) (.exception pm pe t) r = some (.ok mt, r) ∧
      (me.setMatch false).Match = false := by
  obtain ⟨mt, hmt⟩ := hT ((me.setMatch false).setFailed (some (me.setMatch false))) r2
  have hrestore : r2.restoreState = r := by
    rcases matchF_spec fuel pe r.pushState _ r2 hben hexc with hpan | ⟨m2, -, hAdv, -⟩
    · exact absurd hpan (by simp)
    · exact push_adv_restore_eq hAdv
  refine ⟨mt, hmt, ?_, setMatch_Match me false⟩
  unfold matchF
  dsimp only
  rw [hexc]
  dsimp only
  rw [if_pos hM, hmt]
  dsimp only
  rw [hrestore]

/-- Witness for C8 at Exception(must = "b", except = "a") on input "a". -/
theorem claim8_witness :
    matchF 1 (.terminal ['a'] none) ((NewReader ['a']).pushState) =
      some (.ok (.mk true false (some ⟨0, 0, 0⟩) (some ⟨1, 1, 0⟩)
          (.vstr ['a']) none none),
        { NewReader ['a'] with bufPos := 1, bufPosStack := [0, 0], linePosStack := [0, 0] }) ∧
    (∃ mt, runT none ((((MatchResult.mk true false (some ⟨0, 0, 0⟩)
          (some ⟨1, 1, 0⟩) (.vstr ['a']) none none)).setMatch false).setFailed
          (some ((MatchResult.mk true false (some ⟨0, 0, 0⟩) (some ⟨1, 1, 0⟩)
            (.vstr ['a']) none none).setMatch false)))
        { NewReader ['a'] with bufPos := 1, bufPosStack := [0, 0], linePosStack := [0, 0] } =
        (none, mt, { NewReader ['a'] with bufPos := 1, bufPosStack := [0, 0], linePosStack := [0, 0] }) ∧
      matchF 2 (.exception (.terminal ['b'] none) (.terminal ['a'] none) none)
          (NewReader ['a']) = some (.ok mt, NewReader ['a']) ∧
      ((MatchResult.mk true false (some ⟨0, 0, 0⟩) (some ⟨1, 1, 0⟩)
        (.vstr ['a']) none none).setMatch false).Match = false) :=
  ⟨rfl, claim8_exception_failed 1 (.terminal ['b'] none) (.terminal ['a'] none)
    none (NewReader ['a'])
    { NewReader ['a'] with bufPos := 1, bufPosStack := [0, 0], linePosStack := [0, 0] }
    (.mk true false (some ⟨0, 0, 0⟩) (some ⟨1, 1, 0⟩) (.vstr ['a']) none none)
    (Benign.terminal ['a'] none benignT_none) benignT_none rfl rfl⟩

theorem pushError_foldl : ∀ (ms : List MatchResult) (r : Reader),
    (ms.foldl Reader.pushError r).errorStack = r.errorStack ++ ms := by
  intro ms
  induction ms with
  | nil => intro r; simp
  | cons x L ih =>
      intro r
      show ((L.foldl Reader.pushError (r.pushError x)).errorStack) = _
      rw [ih (r.pushError x)]
      show (r.errorStack ++ [x]) ++ L = r.errorStack ++ (x :: L)
      simp

/-- The accumulator characterization of the `DeepestError` fold: starting
from candidate `d` the fold returns the first entry of `d :: L` whose
`end.abs` is maximal (a later entry only replaces the candidate when it is
strictly deeper). -/
theorem deepestStep_foldl_spec : ∀ (L : List MatchResult) (d : MatchResult),
    ∃ m, L.foldl deepestStep (some d) = some m ∧
      endAbs d ≤ endAbs m ∧ (∀ x ∈ L, endAbs x ≤ endAbs m) ∧
      (m = d ∨ ∃ pre post, L = pre ++ m :: post ∧ endAbs d < endAbs m ∧
        ∀ x ∈ pre, endAbs x < endAbs m) := by
  intro L
  induction L with
  | nil =>
      intro d
      exact ⟨d, rfl, Nat.le_refl _, by simp, Or.inl rfl⟩
  | cons x L ih =>
      intro d
      show ∃ m, L.foldl deepestStep (deepestStep (some d) x) = some m ∧ _
      by_cases hlt : endAbs d < endAbs x
      · rw [show deepestStep (some d) x = some x by
          unfold deepestStep
          dsimp only
          rw [if_pos hlt]]
        obtain ⟨m, heq, hxm, hall, hcase⟩ := ih x
        refine ⟨m, heq, Nat.le_trans (Nat.le_of_lt hlt) hxm, ?_, ?_⟩
        · intro y hy
          rcases List.mem_cons.mp hy with rfl | hy2
          · exact hxm
          · exact hall y hy2
        · rcases hcase with rfl | ⟨pre, post, hL, hxmlt, hpre⟩
          · exact Or.inr ⟨[], L, rfl, hlt, by simp⟩
          · refine Or.inr ⟨x :: pre, post, by rw [hL]; rfl,
              Nat.lt_of_lt_of_le hlt hxm, ?_⟩
            intro y hy
            rcases List.mem_cons.mp hy with rfl | hy2
            · exact hxmlt
            · exact hpre y hy2
      · rw [show deepestStep (some d) x = some d by
          unfold deepestStep
          dsimp only
          rw [if_neg hlt]]
        obtain ⟨m, heq, hdm, hall, hcase⟩ := ih d
        have hxd : endAbs x ≤ endAbs d := Nat.le_of_not_lt hlt
        refine ⟨m, heq, hdm, ?_, ?_⟩
        · intro y hy
          rcases List.mem_cons.mp hy with rfl | hy2
          · exact Nat.le_trans hxd hdm
          · exact hall y hy2
        · rcases hcase with rfl | ⟨pre, post, hL, hdmlt, hpre⟩
          · exact Or.inl rfl
          · refine Or.inr ⟨x :: pre, post, by rw [hL]; rfl, hdmlt, ?_⟩
            intro y hy
            rcases List.mem_cons.mp hy with rfl | hy2
            · exact Nat.lt_of_le_of_lt hxd hdmlt
            · exact hpre y hy2

/-- Claim C9: for every sequence of failed MatchResults appended via
`PushError` onto a reader with an empty error stack (each carrying an end
position — Go dereferences `EndPos`), `DeepestError` returns null when
nothing was pushed, and otherwise an entry whose `end.abs` is maximal such
that every entry pushed before it is strictly shallower — i.e. the first
pushed among the maximal ones. -/
theorem claim9_deepest_error (ms : List MatchResult) (r : Reader)
    (hstack : r.errorStack = [])
    (hpos : ∀ m ∈ ms, m.EndPos.isSome = true) :
    (ms = [] → (ms.foldl Reader.pushError r).deepestError = none) ∧
    (ms ≠ [] → ∃ pre post m,
      (ms.foldl Reader.pushError r).deepestError = some m ∧
      ms = pre ++ m :: post ∧
      (∀ x ∈ ms, endAbs x ≤ endAbs m) ∧
      (∀ x ∈ pre, endAbs x < endAbs m)) := by
  have hstack2 : (ms.foldl Reader.pushError r).errorStack = ms := by
    rw [pushError_foldl ms r, hstack]
    simp
  constructor
  · intro hnil
    unfold Reader.deepestError
    rw [hstack2, hnil]
    rfl
  · intro hne
    cases ms with
    | nil => exact absurd rfl hne
    | cons d L =>
        unfold Reader.deepestError
        rw [hstack2]
        show ∃ pre post m, L.foldl deepestStep (deepestStep none d) = some m ∧ _
        rw [show deepestStep none d = some d from rfl]
        obtain ⟨m, heq, hdm, hall, hcase⟩ := deepestStep_foldl_spec L d
        rcases hcase with rfl | ⟨pre, post, hL, hdmlt, hpre⟩
        · refine ⟨[], L, m, heq, rfl, ?_, by simp⟩
          intro y hy
          rcases List.mem_cons.mp hy with rfl | hy2
          · exact Nat.le_refl _
          · exact hall y hy2
        · refine ⟨d :: pre, post, m, heq, by rw [hL]; rfl, ?_, ?_⟩
          · intro y hy
            rcases List.mem_cons.mp hy with rfl | hy2
            · exact hdm
            · exact hall y hy2
          · intro y hy
            rcases List.mem_cons.mp hy with rfl | hy2
            · exact hdmlt
            · exact hpre y hy2

/-- Witness for C9: three pushed failures with end positions 2, 2 and 1; the
deepest is the FIRST of the two entries at depth 2. -/
theorem claim9_witness :
    (NewReader ['z', 'z']).errorStack = [] ∧
    (∀ m ∈ [MatchResult.mk false false none (some ⟨2, 2, 0⟩) .vnone none none,
            MatchResult.mk false true none (some ⟨2, 2, 0⟩) .vnone none none,
            MatchResult.mk false false none (some ⟨1, 1, 0⟩) .vnone none none],
      m.EndPos.isSome = true) ∧
    (([MatchResult.mk false false none (some ⟨2, 2, 0⟩) .vnone none none,
       MatchResult.mk false true none (some ⟨2, 2, 0⟩) .vnone none none,
       MatchResult.mk false false none (some ⟨1, 1, 0⟩) .vnone none none] ≠ []) →
      ∃ pre post m,
        (([MatchResult.mk false false none (some ⟨2, 2, 0⟩) .vnone none none,
           MatchResult.mk false true none (some ⟨2, 2, 0⟩) .vnone none none,
           MatchResult.mk false false none (some ⟨1, 1, 0⟩) .vnone none
             none].foldl Reader.pushError (NewReader ['z', 'z'])).deepestError =
          some m ∧
        [MatchResult.mk false false none (some ⟨2, 2, 0⟩) .vnone none none,
         MatchResult.mk false true none (some ⟨2, 2, 0⟩) .vnone none none,
         MatchResult.mk false false none (some ⟨1, 1, 0⟩) .vnone none none] =
          pre ++ m :: post ∧
        (∀ x ∈ [MatchResult.mk false false none (some ⟨2, 2, 0⟩) .vnone none none,
                MatchResult.mk false true none (some ⟨2, 2, 0⟩) .vnone none none,
                MatchResult.mk false false none (some ⟨1, 1, 0⟩) .vnone none none],
          endAbs x ≤ endAbs m) ∧
        (∀ x ∈ pre, endAbs x < endAbs m))) :=
  ⟨rfl, by decide,
    (claim9_deepest_error
      [MatchResult.mk false false none (some ⟨2, 2, 0⟩) .vnone none none,
       MatchResult.mk false true none (some ⟨2, 2, 0⟩) .vnone none none,
       MatchResult.mk false false none (some ⟨1, 1, 0⟩) .vnone none none]
      (NewReader ['z', 'z']) rfl (by decide)).2⟩

theorem scanLines_mem : ∀ (l : List Char) (idx : Nat),
    ∀ s ∈ scanLines l idx, idx < s ∧ s ≤ idx + l.length := by
  intro l idx
  induction l, idx using scanLines.induct with
  | case1 idx => intro s hs; simp [scanLines] at hs
  | case2 rest2 idx ih =>
      intro s hs
      rw [scanLines] at hs
      rcases List.mem_cons.mp hs with rfl | hs2
      · simp only [List.length_cons]; omega
      · have := ih s hs2
        simp only [List.length_cons]; omega
  | case3 rest idx hne ih =>
      intro s hs
      rw [scanLines.eq_3 idx rest hne] at hs
      rcases List.mem_cons.mp hs with rfl | hs2
      · simp only [List.length_cons]; omega
      · have := ih s hs2
        simp only [List.length_cons]; omega
  | case4 rest idx ih =>
      intro s hs
      rw [scanLines.eq_4 idx rest] at hs
      rcases List.mem_cons.mp hs with rfl | hs2
      · simp only [List.length_cons]; omega
      · have := ih s hs2
        simp only [List.length_cons]; omega
  | case5 c rest idx h1 h2 h3 ih =>
      intro s hs
      rw [scanLines.eq_5 idx c rest h1 h2 h3] at hs
      have := ih s hs
      simp only [List.length_cons]
      omega

theorem scanLines_sorted : ∀ (l : List Char) (idx : Nat),
    List.Sorted (· < ·) (scanLines l idx) := by
  intro l idx
  induction l, idx using scanLines.induct with
  | case1 idx => simp [scanLines]
  | case2 rest2 idx ih =>
      rw [scanLines, List.sorted_cons]
      exact ⟨fun s hs => (scanLines_mem rest2 (idx + 2) s hs).1, ih⟩
  | case3 rest idx hne ih =>
      rw [scanLines.eq_3 idx rest hne, List.sorted_cons]
      exact ⟨fun s hs => (scanLines_mem rest (idx + 1) s hs).1, ih⟩
  | case4 rest idx ih =>
      rw [scanLines.eq_4 idx rest, List.sorted_cons]
      exact ⟨fun s hs => (scanLines_mem rest (idx + 1) s hs).1, ih⟩
  | case5 c rest idx h1 h2 h3 ih =>
      rw [scanLines.eq_5 idx c rest h1 h2 h3]
      exact ih

theorem startIn_eq_true {b e s : Nat} : startIn b e s = true ↔ (s ≤ b ∧ s < e) := by
  simp [startIn]

/-- On a strictly sorted list of line starts, moving the cursor from `b` to
`b + 1` (still inside the buffer, `b + 1 < e`) raises the count of starts at
or before the cursor by one exactly when the start indexed by the old count
has been reached — the condition `Read` tests. -/
theorem sorted_countP_step : ∀ (L : List Nat), List.Sorted (· < ·) L →
    ∀ (b e : Nat), b + 1 < e →
    L.countP (startIn (b + 1) e) =
      (if L.countP (startIn b e) < L.length ∧
          L.getD (L.countP (startIn b e)) 0 ≤ b + 1
       then L.countP (startIn b e) + 1
       else L.countP (startIn b e)) := by
  intro L
  induction L with
  | nil => intro _ b e hb; simp
  | cons a L ih =>
      intro hsort b e hb
      obtain ⟨ha, hL⟩ := List.sorted_cons.mp hsort
      by_cases hab : a ≤ b
      · have hpa : startIn b e a = true := startIn_eq_true.mpr ⟨hab, by omega⟩
        have hpa1 : startIn (b + 1) e a = true :=
          startIn_eq_true.mpr ⟨by omega, by omega⟩
        rw [List.countP_cons_of_pos _ L hpa, List.countP_cons_of_pos _ L hpa1,
          ih hL b e hb]
        simp only [List.length_cons, List.getD_cons_succ]
        by_cases hc : L.countP (startIn b e) < L.length ∧
            L.getD (L.countP (startIn b e)) 0 ≤ b + 1
        · rw [if_pos hc, if_pos ⟨by omega, hc.2⟩]
        · rw [if_neg hc, if_neg (fun hcc => hc ⟨by omega, hcc.2⟩)]
      · have hgt : ∀ x ∈ L, b + 1 < x := by
          intro x hx
          have := ha x hx
          omega
        have hz : L.countP (startIn b e) = 0 := by
          rw [List.countP_eq_zero]
          intro x hx
          rw [startIn_eq_true]
          have := hgt x hx
          omega
        have hz1 : L.countP (startIn (b + 1) e) = 0 := by
          rw [List.countP_eq_zero]
          intro x hx
          rw [startIn_eq_true]
          have := hgt x hx
          omega
        have hpa : ¬(startIn b e a = true) := by
          rw [startIn_eq_true]
          omega
        rw [List.countP_cons_of_neg _ L hpa, hz]
        by_cases hab1 : a ≤ b + 1
        · have hpa1 : startIn (b + 1) e a = true :=
            startIn_eq_true.mpr ⟨hab1, by omega⟩
          rw [List.countP_cons_of_pos _ L hpa1, hz1,
            if_pos ⟨by simp, by simp only [List.getD_cons_zero]; exact hab1⟩]
        · have hpa1 : ¬(startIn (b + 1) e a = true) := by
            rw [startIn_eq_true]
            omega
          rw [List.countP_cons_of_neg _ L hpa1, hz1,
            if_neg (fun hcc => hab1 (by simpa using hcc.2))]

theorem ReaderLineWF_new (input : List Char) : ReaderLineWF (NewReader input) := by
  refine ⟨scanLines_sorted input 0, ?_, rfl, Nat.zero_le _, ?_⟩
  · intro s hs
    have := scanLines_mem input 0 s hs
    exact ⟨this.1, by simpa using this.2⟩
  · refine Eq.symm ?_
    have hall : ∀ s ∈ (NewReader input).lines,
        ¬(startIn (NewReader input).bufPos (NewReader input).bufPosEnd s = true) := by
      intro s hs
      rw [startIn_eq_true]
      have hm := scanLines_mem input 0 s hs
      show ¬(s ≤ 0 ∧ s < input.length)
      omega
    exact List.countP_eq_zero.mpr hall

theorem ReaderLineWF_read {r : Reader} (h : ReaderLineWF r) :
    ReaderLineWF (r.read).2 := by
  obtain ⟨hsort, hbnd, hle, hpos, hinv⟩ := h
  unfold Reader.read
  split
  · next hlt =>
      refine ⟨hsort, hbnd, hle, by show r.bufPos + 1 ≤ r.bufPosEnd; omega, ?_⟩
      show (if r.bufPos + 1 < r.bufPosEnd ∧ r.linePos < r.linePosEnd ∧
          r.lines.getD r.linePos 0 ≤ r.bufPos + 1
        then r.linePos + 1 else r.linePos) =
        r.lines.countP (startIn (r.bufPos + 1) r.bufPosEnd)
      by_cases hbe : r.bufPos + 1 < r.bufPosEnd
      · rw [sorted_countP_step r.lines hsort r.bufPos r.bufPosEnd hbe, hinv, hle]
        simp only [hbe, true_and]
      · rw [if_neg (fun hcc => hbe hcc.1), hinv]
        apply List.countP_congr
        intro s hs
        rw [startIn_eq_true, startIn_eq_true]
        omega
  · exact ⟨hsort, hbnd, hle, hpos, hinv⟩

theorem readN_WF : ∀ (n : Nat) (r : Reader), ReaderLineWF r →
    ReaderLineWF (readN n r) := by
  intro n
  induction n with
  | zero => intro r h; exact h
  | succ n ih => intro r h; exact ih (r.read).2 (ReaderLineWF_read h)

/-- Claim C6, counterexample to the claim as stated: on input `"a\n"` the
single line start is index 2; reading the final `'\n'` makes the new `abs`
(2) equal both that line-start index and the buffer length, yet `line` stays
0 — so `line` (0) differs from the number of line-starts ≤ abs (1), and the
increment the claim requires at the buffer end does not happen. -/
theorem claim6_cex :
    (readN 2 (NewReader ['a', '\n'])).bufPos = 2 ∧
    (readN 2 (NewReader ['a', '\n'])).lines = [2] ∧
    (readN 2 (NewReader ['a', '\n'])).linePos = 0 ∧
    (readN 2 (NewReader ['a', '\n'])).lines.countP (fun s => decide (s ≤ 2)) = 1 :=
  ⟨rfl, rfl, rfl, rfl⟩

/-- Claim C6 (amended): for every reader state with `abs < length`, `read()`
advances `abs` by exactly one and increments `line` exactly when the new
`abs` reaches the next line-start index while remaining strictly below the
buffer length; consequently, for every reader obtained from `NewReader` by
reads, `line` equals the number of line-starts that are ≤ `abs` and strictly
below the buffer length (a line terminator that ends the input stops being
counted once `abs` reaches the end). -/
theorem claim6_line_tracking (input : List Char) (n : Nat) :
    ((readN n (NewReader input)).bufPos < (readN n (NewReader input)).bufPosEnd →
      ((readN n (NewReader input)).read).2.bufPos =
        (readN n (NewReader input)).bufPos + 1) ∧
    (readN n (NewReader input)).linePos =
      (readN n (NewReader input)).lines.countP
        (startIn (readN n (NewReader input)).bufPos
          (readN n (NewReader input)).bufPosEnd) := by
  have hwf := readN_WF n (NewReader input) (ReaderLineWF_new input)
  refine ⟨fun hlt => ?_, hwf.2.2.2.2⟩
  unfold Reader.read
  rw [if_pos hlt]

/-- Witness for C6 on input `"a\nb"` after two reads. -/
theorem claim6_witness :
    ((readN 2 (NewReader ['a', '\n', 'b'])).bufPos <
        (readN 2 (NewReader ['a', '\n', 'b'])).bufPosEnd →
      ((readN 2 (NewReader ['a', '\n', 'b'])).read).2.bufPos =
        (readN 2 (NewReader ['a', '\n', 'b'])).bufPos + 1) ∧
    (readN 2 (NewReader ['a', '\n', 'b'])).linePos =
      (readN 2 (NewReader ['a', '\n', 'b'])).lines.countP
        (startIn (readN 2 (NewReader ['a', '\n', 'b'])).bufPos
          (readN 2 (NewReader ['a', '\n', 'b'])).bufPosEnd) :=
  claim6_line_tracking ['a', '\n', 'b'] 2

theorem currentPosition_popState (r : Reader) :
    (r.popState).currentPosition = r.currentPosition := by
  unfold Reader.popState
  split <;> rfl

theorem pop_push (r : Reader) : (r.pushState).popState = r := rfl

/-- A failed invocation of a tame pattern hands back the very same reader. -/
theorem matchF_fail_eq (fuel : Nat) (p : Pattern) (r : Reader) (m : MatchResult)
    (r' : Reader) (htame : Tame p) (h : matchF fuel p r = some (.ok m, r'))
    (hm : m.Match = false) : r' = r := by
  rcases matchF_spec fuel p r _ r' htame.toBenign h with hpan | ⟨m2, hm2, hAdv, hneut⟩
  · simp at hpan
  · injection hm2 with hmm
    rw [← hmm] at hneut
    obtain ⟨⟨c1, c2, c3, c4, c5⟩, s1, s2, -, -⟩ := hAdv
    obtain ⟨p1, p2⟩ := hneut htame hm
    exact Reader.ext c1 p1 c2 s1 c3 p2 c4 s2 c5

/-- The loop `termLoop` without a transform: the only matching exit is the success
exit, which pops and carries the begin position and the final cursor. -/
theorem termLoop_none_ok {bp : ReaderPos} : ∀ (cs : List Char) (r1 : Reader)
    (m : MatchResult) (r' : Reader),
    termLoop none bp cs r1 = some (.ok m, r') → m.Match = true →
    ∃ r2 : Reader, r' = r2.popState ∧ m = MatchResult.mk true false (some bp)
      (some r2.currentPosition) (.vstr r2.string) none none := by
  intro cs
  induction cs with
  | nil =>
      intro r1 m r' h hm
      unfold termLoop at h
      dsimp only [runT] at h
      obtain ⟨ho, hr⟩ := mres_inj h
      injection ho with hom
      exact ⟨r1, hr.symm, hom.symm⟩
  | cons c cs ih =>
      intro r1 m r' h hm
      unfold termLoop at h
      rcases hrd : r1.read with ⟨copt, rA⟩
      rw [hrd] at h
      cases copt with
      | none =>
          dsimp only [runT] at h
          obtain ⟨ho, hr⟩ := mres_inj h
          injection ho with hom
          rw [← hom] at hm
          exact absurd hm (by simp [MatchResult.Match])
      | some c2 =>
          dsimp only at h
          by_cases hc : c ≠ c2
          · rw [if_pos hc] at h
            dsimp only [runT] at h
            obtain ⟨ho, hr⟩ := mres_inj h
            injection ho with hom
            rw [← hom] at hm
            exact absurd hm (by simp [MatchResult.Match])
          · rw [if_neg hc] at h
            exact ih rA m r' h hm

/-- The loop `altLoop` without a transform: a matching answer is the unchanged answer
of one of the children, invoked at the loop's entry reader (every failed
child before it handed the reader back). -/
theorem altLoop_none_ok {child : Pattern → Reader → MRes} {bp : ReaderPos} :
    ∀ (ps : List Pattern) (pRes : Option MatchResult) (r1 : Reader)
      (m : MatchResult) (r' : Reader),
    (∀ q ∈ ps, ∀ rr mm rr', child q rr = some (.ok mm, rr') → mm.Match = false →
      rr' = rr) →
    altLoop child none bp ps pRes r1 = some (.ok m, r') → m.Match = true →
    ∃ q ∈ ps, child q r1 = some (.ok m, r') := by
  intro ps
  induction ps with
  | nil =>
      intro pRes r1 m r' _ h hm
      unfold altLoop altFinal at h
      dsimp only [runT] at h
      obtain ⟨ho, hr⟩ := mres_inj h
      injection ho with hom
      rw [← hom] at hm
      exact absurd hm (by simp [MatchResult.Match])
  | cons p rest ih =>
      intro pRes r1 m r' Hc h hm
      unfold altLoop at h
      by_cases hf : r1.finished
      · rw [if_pos hf] at h
        unfold altFinal at h
        dsimp only [runT] at h
        obtain ⟨ho, hr⟩ := mres_inj h
        injection ho with hom
        rw [← hom] at hm
        exact absurd hm (by simp [MatchResult.Match])
      · rw [if_neg hf] at h
        rcases hch : child p r1 with - | ⟨oc, rX⟩
        · rw [hch] at h; exact absurd h (by simp)
        · rw [hch] at h
          cases oc with
          | fatal e =>
              obtain ⟨ho, -⟩ := mres_inj h
              exact absurd ho (by simp)
          | panicked =>
              obtain ⟨ho, -⟩ := mres_inj h
              exact absurd ho (by simp)
          | ok mC =>
              dsimp only at h
              by_cases hMc : mC.Match
              · rw [if_pos hMc] at h
                dsimp only [runT] at h
                obtain ⟨ho, hr⟩ := mres_inj h
                injection ho with hom
                refine ⟨p, List.mem_cons_self p rest, ?_⟩
                rw [hch, hom, hr]
              · rw [if_neg hMc] at h
                have hreq : rX = r1 :=
                  Hc p (List.mem_cons_self p rest) r1 mC rX hch
                    (by simpa using hMc)
                rw [hreq] at h
                obtain ⟨q, hq, hcq⟩ := ih _ r1 m r'
                  (fun q hq => Hc q (List.mem_cons_of_mem p hq)) h hm
                exact ⟨q, List.mem_cons_of_mem p hq, hcq⟩

/-- The loop `concatLoop` without a transform: a matching answer is the success exit,
which pops and carries the begin position and the final cursor. -/
theorem concatLoop_none_ok {child : Pattern → Reader → MRes} {bp : ReaderPos} :
    ∀ (ps : List Pattern) (acc : List MatchResult) (flag : Bool) (r1 : Reader)
      (m : MatchResult) (r' : Reader),
    concatLoop child none bp ps acc flag r1 = some (.ok m, r') → m.Match = true →
    ∃ (r2 : Reader) (ms : List MatchResult), r' = r2.popState ∧
      m = MatchResult.mk true false (some bp)
        (some r2.currentPosition) (.vlist ms) none none := by
  intro ps
  induction ps with
  | nil =>
      intro acc flag r1 m r' h hm
      unfold concatLoop at h
      dsimp only [runT] at h
      obtain ⟨ho, hr⟩ := mres_inj h
      injection ho with hom
      exact ⟨r1, acc, hr.symm, hom.symm⟩
  | cons p rest ih =>
      intro acc flag r1 m r' h hm
      unfold concatLoop at h
      rcases hch : child p r1 with - | ⟨oc, rX⟩
      · rw [hch] at h; exact absurd h (by simp)
      · rw [hch] at h
        cases oc with
        | fatal e =>
            obtain ⟨ho, -⟩ := mres_inj h
            exact absurd ho (by simp)
        | panicked =>
            obtain ⟨ho, -⟩ := mres_inj h
            exact absurd ho (by simp)
        | ok mC =>
            dsimp only at h
            by_cases hMc : mC.Match
            · rw [if_pos hMc] at h
              exact ih (acc ++ [mC]) true rX m r' h hm
            · rw [if_neg hMc] at h
              dsimp only [runT] at h
              obtain ⟨ho, hr⟩ := mres_inj h
              injection ho with hom
              rw [← hom] at hm
              exact absurd hm (by simp [MatchResult.Match])

theorem repFinal_none_ok {mn : Nat} {bp : ReaderPos} {acc : List MatchResult}
    {last : Option MatchResult} {r : Reader} {m : MatchResult} {r' : Reader}
    (h : repFinal mn none bp acc last r = some (.ok m, r')) (hm : m.Match = true) :
    ∃ ms, r' = r.popState ∧ m = MatchResult.mk true false (some bp)
      (some r.currentPosition) (.vlist ms) none none := by
  unfold repFinal at h
  by_cases hlen : acc.length < mn
  · rw [if_pos hlen] at h
    cases last with
    | none =>
        obtain ⟨ho, -⟩ := mres_inj h
        exact absurd ho (by simp)
    | some lastR =>
        dsimp only [runT] at h
        obtain ⟨ho, hr⟩ := mres_inj h
        injection ho with hom
        rw [← hom] at hm
        exact absurd hm (by simp [MatchResult.Match])
  · rw [if_neg hlen] at h
    dsimp only [runT] at h
    obtain ⟨ho, hr⟩ := mres_inj h
    injection ho with hom
    exact ⟨acc, hr.symm, hom.symm⟩

theorem repLoop_none_ok {child : Pattern → Reader → MRes} {p : Pattern}
    {mn mx : Nat} {bp : ReaderPos} : ∀ (itFuel : Nat) (acc : List MatchResult)
      (last : Option MatchResult) (r1 : Reader) (m : MatchResult) (r' : Reader),
    repLoop child p mn mx none bp itFuel acc last r1 = some (.ok m, r') →
    m.Match = true →
    ∃ (r2 : Reader) (ms : List MatchResult), r' = r2.popState ∧
      m = MatchResult.mk true false (some bp)
        (some r2.currentPosition) (.vlist ms) none none := by
  intro itFuel
  induction itFuel with
  | zero =>
      intro acc last r1 m r' h hm
      unfold repLoop at h
      by_cases hf : r1.finished
      · rw [if_pos hf] at h
        obtain ⟨ms, hr, hmm⟩ := repFinal_none_ok h hm
        exact ⟨r1, ms, hr, hmm⟩
      · rw [if_neg hf] at h
        exact absurd h (by simp)
  | succ itFuel ih =>
      intro acc last r1 m r' h hm
      unfold repLoop at h
      by_cases hf : r1.finished
      · rw [if_pos hf] at h
        obtain ⟨ms, hr, hmm⟩ := repFinal_none_ok h hm
        exact ⟨r1, ms, hr, hmm⟩
      · rw [if_neg hf] at h
        rcases hch : child p r1 with - | ⟨oc, rX⟩
        · rw [hch] at h; exact absurd h (by simp)
        · rw [hch] at h
          cases oc with
          | fatal e =>
              obtain ⟨ho, -⟩ := mres_inj h
              exact absurd ho (by simp)
          | panicked =>
              obtain ⟨ho, -⟩ := mres_inj h
              exact absurd ho (by simp)
          | ok mC =>
              dsimp only at h
              by_cases hMc : mC.Match
              · rw [if_pos hMc] at h
                by_cases hmx : mx ≠ 0 ∧ (acc ++ [mC]).length = mx
                · rw [if_pos hmx] at h
                  obtain ⟨ms, hr, hmm⟩ := repFinal_none_ok h hm
                  exact ⟨rX, ms, hr, hmm⟩
                · rw [if_neg hmx] at h
                  exact ih (acc ++ [mC]) (some mC) rX m r' h hm
              · rw [if_neg hMc] at h
                obtain ⟨ms, hr, hmm⟩ := repFinal_none_ok h hm
                exact ⟨rX, ms, hr, hmm⟩

/-- Under nil transforms and with no EOF node, a successful match records
exactly the entry position as `BeginPos` and the final cursor as `EndPos`. -/
theorem matchF_pos_spec : ∀ (fuel : Nat) (p : Pattern) (r : Reader)
    (m : MatchResult) (r' : Reader), NoTr p → NoEOF p →
    matchF fuel p r = some (.ok m, r') → m.Match = true →
    m.BeginPos = some r.currentPosition ∧ m.EndPos = some r'.currentPosition := by
  intro fuel
  induction fuel with
  | zero => intro p r m r' _ _ h _; exact absurd h (by simp [matchF])
  | succ fuel ih =>
      intro p r m r' hnt hne h hm
      cases p with
      | terminal s t =>
          cases hnt with
          | terminal _ =>
            unfold matchF at h
            dsimp only at h
            obtain ⟨r2, hr, hmm⟩ := termLoop_none_ok s r.pushState m r' h hm
            constructor
            · rw [hmm]; rfl
            · rw [hmm, hr, currentPosition_popState]
              rfl
      | charGroup g rev t =>
          cases hnt with
          | charGroup _ _ =>
            unfold matchF at h
            dsimp only at h
            rcases hrd : (r.pushState).read with ⟨copt, rA⟩
            rw [hrd] at h
            cases copt with
            | none =>
                dsimp only [runT] at h
                obtain ⟨ho, -⟩ := mres_inj h
                injection ho with hom
                rw [← hom] at hm
                exact absurd hm (by simp [MatchResult.Match])
            | some rn =>
                dsimp only at h
                by_cases hgm : (if rev then !(g rn) else g rn) = true
                · rw [if_pos hgm] at h
                  dsimp only [runT] at h
                  obtain ⟨ho, hr⟩ := mres_inj h
                  injection ho with hom
                  constructor
                  · rw [← hom]; rfl
                  · rw [← hom, ← hr, currentPosition_popState]
                    rfl
                · rw [if_neg hgm] at h
                  obtain ⟨ho, -⟩ := mres_inj h
                  injection ho with hom
                  rw [← hom] at hm
                  exact absurd hm (by simp [MatchResult.Match])
      | alternation ps t =>
          cases hnt with
          | alternation _ hkids =>
            cases hne with
            | alternation _ _ hek =>
              unfold matchF at h
              dsimp only at h
              obtain ⟨q, hq, hcq⟩ := altLoop_none_ok ps none r m r'
                (fun q hqq rr mm rr' hcc hmf => matchF_fail_eq fuel q rr mm rr'
                  ((hkids q hqq).toTame) hcc hmf) h hm
              exact ih q r m r' (hkids q hq) (hek q hq) hcq hm
      | concatenation ps t =>
          cases hnt with
          | concatenation _ _ =>
            unfold matchF at h
            dsimp only at h
            obtain ⟨r2, ms, hr, hmm⟩ := concatLoop_none_ok ps [] false r.pushState m r' h hm
            constructor
            · rw [hmm]; rfl
            · rw [hmm, hr, currentPosition_popState]
              rfl
      | repetition pc mn mx t =>
          cases hnt with
          | repetition _ _ _ _ =>
            unfold matchF at h
            dsimp only at h
            obtain ⟨r2, ms, hr, hmm⟩ := repLoop_none_ok fuel [] none r.pushState m r' h hm
            constructor
            · rw [hmm]; rfl
            · rw [hmm, hr, currentPosition_popState]
              rfl
      | exception pm pe t =>
          cases hnt with
          | exception _ _ hntm hnte =>
            cases hne with
            | exception _ _ _ hnem hnee =>
              unfold matchF at h
              dsimp only at h
              rcases hexc : matchF fuel pe r.pushState with - | ⟨oc, r2⟩
              · rw [hexc] at h; exact absurd h (by simp)
              · rw [hexc] at h
                cases oc with
                | fatal e =>
                    obtain ⟨ho, -⟩ := mres_inj h
                    exact absurd ho (by simp)
                | panicked =>
                    obtain ⟨ho, -⟩ := mres_inj h
                    exact absurd ho (by simp)
                | ok me =>
                    dsimp only at h
                    by_cases hMe : me.Match
                    · rw [if_pos hMe] at h
                      dsimp only [runT] at h
                      obtain ⟨ho, -⟩ := mres_inj h
                      injection ho with hom
                      rw [← hom] at hm
                      exact absurd hm
                        (by cases me; simp [MatchResult.setMatch,
                          MatchResult.setFailed, MatchResult.Match])
                    · rw [if_neg hMe] at h
                      have hr2 : r2 = r.pushState := matchF_fail_eq fuel pe
                        r.pushState me r2 hnte.toTame hexc (by simpa using hMe)
                      rw [hr2, pop_push] at h
                      rcases hmust : matchF fuel pm r with - | ⟨oc2, r4⟩
                      · rw [hmust] at h; exact absurd h (by simp)
                      · rw [hmust] at h
                        cases oc2 with
                        | fatal e =>
                            obtain ⟨ho, -⟩ := mres_inj h
                            exact absurd ho (by simp)
                        | panicked =>
                            obtain ⟨ho, -⟩ := mres_inj h
                            exact absurd ho (by simp)
                        | ok mm =>
                            dsimp only [runT] at h
                            obtain ⟨ho, hr⟩ := mres_inj h
                            injection ho with hom
                            have hres := ih pm r mm r4 hntm hnem hmust
                              (by rw [hom]; exact hm)
                            rw [← hom, ← hr]
                            exact hres
      | eofP t => cases hne

/-- Claim C5, counterexample to the claim as stated: the successful result
produced by EndOfInput carries no positions at all (`BeginPos` and `EndPos`
are nil pointers in Go), so `StringFromResult` on it dereferences nil
(modelled as `none`) — slice correctness does not extend to EOF results. -/
theorem claim5_cex :
    matchF 1 (.eofP none) (NewReader []) =
      some (.ok (.mk true false none none .vnone none none), NewReader []) ∧
    (NewReader []).stringFromResult (.mk true false none none .vnone none none) =
      none :=
  ⟨rfl, rfl⟩

/-- Claim C5 (amended): for every pattern free of EndOfInput nodes (with nil
transforms) and every reader with `abs ≤ length` over its own buffer, every
successful result `m` satisfies `string_from_result(m) = buffer[m.begin.abs
.. m.end.abs]` with `m.end.abs ≥ m.begin.abs`; EndOfInput's successful
result carries no positions and is excluded. -/
theorem claim5_slice_correctness (fuel : Nat) (p : Pattern) (r r' : Reader)
    (m : MatchResult) (hnt : NoTr p) (hne : NoEOF p)
    (hwf1 : r.bufPosEnd = r.buf.length) (hwf2 : r.bufPos ≤ r.buf.length)
    (h : matchF fuel p r = some (.ok m, r')) (hM : m.Match = true) :
    ∃ b e : ReaderPos, m.BeginPos = some b ∧ m.EndPos = some e ∧
      b.absoluteCharPos ≤ e.absoluteCharPos ∧
      r'.stringFromResult m =
        some (goSlice r'.buf b.absoluteCharPos e.absoluteCharPos) := by
  obtain ⟨hb, he⟩ := matchF_pos_spec fuel p r m r' hnt hne h hM
  rcases matchF_spec fuel p r _ r' hnt.toTame.toBenign h with hpan | ⟨m2, -, hAdv, -⟩
  · simp at hpan
  · obtain ⟨⟨c1, c2, -, -, -⟩, -, -, hmono, hbound⟩ := hAdv
    have hlen : r'.buf.length = r.buf.length := by rw [c1]
    have hinbuf : r'.bufPos ≤ r'.buf.length := by
      rw [hlen]
      rcases hbound with hb2 | hb2 <;> omega
    refine ⟨r.currentPosition, r'.currentPosition, hb, he, hmono, ?_⟩
    unfold Reader.stringFromResult
    rw [hb, he]
    dsimp only
    rw [if_pos ⟨hmono, hinbuf⟩]

/-- Witness for C5: `TerminalString("a")` on input "ab". -/
theorem claim5_witness :
    matchF 1 (.terminal ['a'] none) (NewReader ['a', 'b']) =
      some (.ok (.mk true false (some ⟨0, 0, 0⟩) (some ⟨1, 1, 0⟩)
        (.vstr ['a']) none none), { NewReader ['a', 'b'] with bufPos := 1 }) ∧
    (∃ b e : ReaderPos,
      (MatchResult.mk true false (some ⟨0, 0, 0⟩) (some ⟨1, 1, 0⟩)
        (.vstr ['a']) none none).BeginPos = some b ∧
      (MatchResult.mk true false (some ⟨0, 0, 0⟩) (some ⟨1, 1, 0⟩)
        (.vstr ['a']) none none).EndPos = some e ∧
      b.absoluteCharPos ≤ e.absoluteCharPos ∧
      ({ NewReader ['a', 'b'] with bufPos := 1 } : Reader).stringFromResult
          (MatchResult.mk true false (some ⟨0, 0, 0⟩) (some ⟨1, 1, 0⟩)
            (.vstr ['a']) none none) =
        some (goSlice ({ NewReader ['a', 'b'] with bufPos := 1 } : Reader).buf
          b.absoluteCharPos e.absoluteCharPos)) :=
  ⟨rfl, claim5_slice_correctness 1 (.terminal ['a'] none) (NewReader ['a', 'b'])
    { NewReader ['a', 'b'] with bufPos := 1 }
    (.mk true false (some ⟨0, 0, 0⟩) (some ⟨1, 1, 0⟩) (.vstr ['a']) none none)
    (NoTr.terminal ['a']) (NoEOF.terminal ['a'] none) rfl (by decide) rfl rfl⟩
